import Mathlib

/-!
Verification development for the async-1brc streaming reader / parser /
aggregator pipeline.

Bytes are modelled as natural numbers (`u8` values, always < 256 on real
input), byte buffers as `List Nat`, machine integers (`i16`, `i32`) as `Int`
(all values arising on the claims' input domains are far inside the machine
ranges, so two's-complement wrap-around never fires), and `usize` as `Nat`.
Asynchronous buffered reads (`read_until`) are modelled as pure functions
splitting the remaining stream. Loops whose Rust termination argument is
"every iteration consumes at least one byte" are modelled with an explicit
fuel parameter, instantiated with `length + 1`, which the corresponding
lemmas show is always sufficient on the domains of interest.
-/

namespace Brc

/-- Byte values of the two separators. -/
def semiByte : Nat := 59

/-- Byte value of the newline separator. -/
def nlByte : Nat := 10

/-- Model of `tokio::io::AsyncBufReadExt::read_until(sep, buf)` on a pure
stream: returns the bytes consumed (up to and including the first
occurrence of `sep`, or the whole stream if `sep` does not occur) together
with the rest of the stream. -/
def read_until (sep : Nat) : List Nat → List Nat × List Nat
  | [] => ([], [])
  | b :: rest =>
    if b = sep then ([b], rest)
    else
      let p := read_until sep rest
      (b :: p.1, p.2)

/-- `u8::is_ascii_digit` from the Rust standard library. -/
def is_ascii_digit (b : Nat) : Bool :=
  decide (48 ≤ b) && decide (b ≤ 57)

/-- `func::u8_to_digit`: `byte & 15`. -/
def u8_to_digit (b : Nat) : Nat := b % 16

/-- The fold body of `func::digits_to_number`: accumulate
`acc * 10 + digit` on an ASCII digit, set the sign multiplier (the second
state component, modelling the mutable `multiplier` variable) on `'-'`,
ignore every other byte. -/
def dtnStep (st : Int × Int) (d : Nat) : Int × Int :=
  if is_ascii_digit d then (st.1 * 10 + (u8_to_digit d : Int), st.2)
  else if d = 45 then (st.1, -1)
  else st

/-- `func::digits_to_number`: fold `dtnStep` over the bytes and apply the
multiplier at the end. -/
def digits_to_number (l : List Nat) : Int :=
  let st := l.foldl dtnStep (0, 1)
  st.1 * st.2

/-- The fold body of `line::parse_value` (which, unlike
`digits_to_number`, skips `'-'` silently because the sign was already
decided from the first byte read). -/
def pvStep (acc : Int) (d : Nat) : Int :=
  if is_ascii_digit d then acc * 10 + (u8_to_digit d : Int) else acc

/-- The digit-accumulating fold of `line::parse_value`. -/
def parse_value_fold (l : List Nat) : Int :=
  l.foldl pvStep 0

/-- `line::parse_value` on the remaining stream: reads up to and including
the next newline, decides the sign from the first byte read, folds the
digits of all but the last byte read (the code always drops the last byte,
which is expected to be the newline), and returns the value together with
the unconsumed stream.  (On an empty stream the Rust code would panic on
`digits[0]`; the model returns the harmless sign 1 there — no claim touches
that case.) -/
def parse_value (stream : List Nat) : Int × List Nat :=
  let p := read_until nlByte stream
  let multiplier : Int := if p.1.headD 0 = 45 then -1 else 1
  (parse_value_fold (p.1.take (p.1.length - 1)) * multiplier, p.2)

/-- `line::parse_name` on the remaining stream: reads up to and including
the next semicolon; on a non-empty read it pops the last byte read
(expected to be the semicolon) and returns the name, otherwise signals end
of input with `none`. -/
def parse_name (stream : List Nat) : Option (List Nat × List Nat) :=
  let p := read_until semiByte stream
  if p.1.length = 0 then none else some (p.1.dropLast, p.2)

/-- One step of the `line::parse_bytes` loop, with fuel; produces the
sequence of `(name, value)` pairs in order.  Fuel `stream.length + 1` is
always sufficient because `parse_name` consumes at least one byte whenever
it succeeds. -/
def lineParseRun : Nat → List Nat → List (List Nat × Int)
  | 0, _ => []
  | fuel + 1, stream =>
    match parse_name stream with
    | none => []
    | some (name, rest) =>
      let pv := parse_value rest
      (name, pv.1) :: lineParseRun fuel pv.2

/-- The full sequence of `(name, value)` pairs produced by the byte-scan
parser `line::parse_bytes` on a frame. -/
def lineParseList (frame : List Nat) : List (List Nat × Int) :=
  lineParseRun (frame.length + 1) frame

/-- The 64-bit word written by `impl Hash for LiteHashBuffer`:
`iter().take(7).enumerate().fold(len as u64, |acc, (pos, byte)| acc | (byte << (pos * 8)))`. -/
def liteHash (b : List Nat) : Nat :=
  ((b.take 7).enum).foldl (fun acc p => acc ||| (p.2 <<< (p.1 * 8))) (b.length % 2 ^ 64)

/-- The hash word as described by the claim C1: bits 0..7 hold
`length & 0xFF`, and byte `i` sits at bits `((i+1)*8)..((i+2)*8)`. -/
def claimHashC1 (b : List Nat) : Nat :=
  (b.length &&& 0xFF) |||
    ((b.take 7).enum).foldl (fun acc p => acc ||| (p.2 <<< ((p.1 + 1) * 8))) 0

/-- The corrected closed form of the hash: the full length (reduced mod
2^64) OR-ed with byte `i` shifted to bits `(i*8)..((i+1)*8)` — byte 0
overlaps the length field. -/
def correctedHashC1 (b : List Nat) : Nat :=
  (b.length % 2 ^ 64) |||
    ((b.take 7).enum).foldl (fun acc p => acc ||| (p.2 <<< (p.1 * 8))) 0

/-! ### The SIMD line parser (`simd_parser.rs`) -/

/-- Whether byte `i` of `chunk` is a separator (`';'` or `'\n'`), i.e.
whether bit `i` of the OR-ed SIMD comparison mask is set (out-of-range
lanes read 0, which is not a separator). -/
def isSepAt (chunk : List Nat) (i : Nat) : Bool :=
  decide (chunk.getD i 0 = semiByte) || decide (chunk.getD i 0 = nlByte)

/-- `map_windows(|[x, y]| if x == &0 { y - x } else { y - x - 1 })`:
turns the `0`-prefixed separator-position list into the list of gaps
between consecutive separators (the first entry is the distance from the
window start). -/
def map_windows_gaps : List Nat → List Nat
  | x :: y :: rest =>
    (if x = 0 then y - x else y - x - 1) :: map_windows_gaps (y :: rest)
  | _ => []

/-- `array_chunks::<2>()`: pairs up consecutive gaps, discarding a
trailing unpaired gap. -/
def array_chunks2 : List Nat → List (Nat × Nat)
  | a :: b :: rest => (a, b) :: array_chunks2 rest
  | _ => []

/-- The separator positions of a chunk (`enumerate().filter_map(..)`). -/
def sepPos (chunk : List Nat) : List Nat :=
  (List.range chunk.length).filter (isSepAt chunk)

/-- The positions of the set bits of the 64-lane separator mask. -/
def sepPos64 (chunk : List Nat) : List Nat :=
  (List.range 64).filter (isSepAt chunk)

/-- `find_separators_simd`: builds the 64-lane separator mask of the first
64 bytes, lists the set bit positions after a leading 0, then takes gaps
and pairs them. -/
def find_separators_simd (chunk : List Nat) : List (Nat × Nat) :=
  array_chunks2 (map_windows_gaps (0 :: sepPos64 chunk))

/-- `find_separators_iter`: the scalar fallback, enumerating the whole
chunk for separators. -/
def find_separators_iter (chunk : List Nat) : List (Nat × Nat) :=
  array_chunks2 (map_windows_gaps (0 :: sepPos chunk))

/-- Recursive characterization of `sepPos`, used by the proofs. -/
def sepPosR : List Nat → List Nat
  | [] => []
  | b :: rest =>
    if b = semiByte ∨ b = nlByte then 0 :: (sepPosR rest).map (· + 1)
    else (sepPosR rest).map (· + 1)

/-- `find_separators`: SIMD for chunks of at least 64 bytes, scalar
fallback otherwise. -/
def find_separators (chunk : List Nat) : List (Nat × Nat) :=
  if 64 ≤ chunk.length then find_separators_simd chunk
  else find_separators_iter chunk

/-- The state of `simd_parser::LineParser`: a cursor, the owned buffer,
and the queue of pre-computed `(semi_gap, newline_gap)` pairs. -/
structure LineParser where
  cursor : Nat
  buffer : List Nat
  next : List (Nat × Nat)

/-- The at-most-64-byte window starting at the cursor,
`buffer[cursor..(cursor + 64).min(buffer.len())]`. -/
def LineParser.window (st : LineParser) : List Nat :=
  (st.buffer.drop st.cursor).take 64

/-- `LineParser::parse_line`: refills the pair queue from the current
window when it is empty and the cursor has not reached the end, then pops
one `(semi, newline)` gap pair and slices name and value out of the
buffer.  (List slicing clamps where the Rust slice would panic; no claim's
input domain reaches that case.) -/
def LineParser.parse_line (st : LineParser) : Option ((List Nat × Int) × LineParser) :=
  let st1 :=
    if st.next = [] ∧ st.cursor < st.buffer.length then
      { st with next := find_separators st.window }
    else st
  match st1.next with
  | [] => none
  | (semi, nl) :: tail =>
    let name := (st1.buffer.drop st1.cursor).take semi
    let c2 := st1.cursor + semi + 1
    let value := (st1.buffer.drop c2).take nl
    some ((name, digits_to_number value),
      { cursor := c2 + nl + 1, buffer := st1.buffer, next := tail })

/-- The `while let Some(..) = parser.parse_line()` loop of
`LineParser::parse_bytes`, with fuel (each successful `parse_line`
advances the cursor by at least 2, so `buffer.length + 1` steps always
suffice). -/
def simdRun : Nat → LineParser → List (List Nat × Int)
  | 0, _ => []
  | fuel + 1, st =>
    match st.parse_line with
    | none => []
    | some (pair, st2) => pair :: simdRun fuel st2

/-- The full sequence of `(name, value)` pairs produced by the SIMD parser
`LineParser::parse_bytes` on a frame. -/
def simdParseList (frame : List Nat) : List (List Nat × Int) :=
  simdRun (frame.length + 1) ⟨0, frame, []⟩

/-! ### Statistics records (`models.rs`) -/

/-- `StationStats`: running minimum, maximum, sum and count.  `i16`/`i32`
fields are modelled as `Int`, `usize` as `Nat`. -/
structure StationStats where
  min : Int
  max : Int
  sum : Int
  count : Nat
deriving DecidableEq, Repr

/-- `StationStats::new(value)` — the single-observation statistics. -/
def StationStats.single (v : Int) : StationStats :=
  ⟨v, v, v, 1⟩

/-- `StationStats::extend(value)` — fold one more observation in. -/
def StationStats.extend (s : StationStats) (v : Int) : StationStats :=
  ⟨Min.min s.min v, Max.max s.max v, s.sum + v, s.count + 1⟩

/-- `impl AddAssign for StationStats` — componentwise min/max/sum/count. -/
def StationStats.add (s t : StationStats) : StationStats :=
  ⟨Min.min s.min t.min, Max.max s.max t.max, s.sum + t.sum, s.count + t.count⟩

/-- `StationRecords` is a hash map from name to statistics; it is modelled
as an association list whose key order is irrelevant (Rust `HashMap`
equality and iteration are captured by `recGet` lookups and by the sorted
export). -/
abbrev StationRecords : Type := List (List Nat × StationStats)

/-- `StationRecords::new()` — the empty table. -/
def StationRecords.empty : StationRecords := []

/-- `StationRecords::get` — hash-map lookup. -/
def recGet : StationRecords → List Nat → Option StationStats
  | [], _ => none
  | (k, s) :: rest, n => if k = n then some s else recGet rest n

/-- `StationRecords::insert(name, value)`:
`entry(name).and_modify(|s| s.extend(value)).or_insert(StationStats::single(value))`. -/
def recInsert (name : List Nat) (v : Int) (r : StationRecords) : StationRecords :=
  if (recGet r name).isSome then
    r.map (fun p => if p.1 = name then (p.1, p.2.extend v) else p)
  else r ++ [(name, StationStats.single v)]

/-- One step of `impl AddAssign for StationRecords`: merge a single
`(key, stats)` pair of the right-hand table into the left-hand table
(`entry(k).and_modify(|s| *s += stats).or_insert(stats)`). -/
def recMergeOne (r : StationRecords) (k : List Nat) (s : StationStats) : StationRecords :=
  if (recGet r k).isSome then
    r.map (fun p => if p.1 = k then (p.1, p.2.add s) else p)
  else r ++ [(k, s)]

/-- `impl AddAssign for StationRecords` (`a += b`): drain the right-hand
table and fold each pair into the left-hand table. -/
def recMerge (a b : StationRecords) : StationRecords :=
  b.foldl (fun acc p => recMergeOne acc p.1 p.2) a

/-- Extensional equality of two tables — exactly what Rust `HashMap`
equality (`==`) observes. -/
def recEq (a b : StationRecords) : Prop :=
  ∀ k, recGet a k = recGet b k

/-- The keys of a table. -/
def recKeys (r : StationRecords) : List (List Nat) := r.map Prod.fst

/-- Build a table by inserting a sequence of `(name, value)` pairs in
order — the effect of streaming a parsed frame into `StationRecords` via
`insert`. -/
def recInsertAll (ps : List (List Nat × Int)) (r : StationRecords) : StationRecords :=
  ps.foldl (fun acc p => recInsert p.1 p.2 acc) r

/-- The combination of two optional statistics: the per-key effect of a
table merge. -/
def optAdd : Option StationStats → Option StationStats → Option StationStats
  | some s, some t => some (s.add t)
  | some s, none => some s
  | none, some t => some t
  | none, none => none

/-- `StationRecords::iter_sorted()` followed by the entry formatter:
entries listed in ascending lexicographic byte order of the names.  The
textual export is a fixed injective formatting of this list, so equal
sorted entry lists give byte-identical output files. -/
def exportPairs (r : StationRecords) : List (List Nat × Option StationStats) :=
  (List.insertionSort (fun a b : List Nat => a ≤ b) (recKeys r)).map
    (fun k => (k, recGet r k))

/-! ### The worker pool (`task.rs` / `models.rs::read_from_reader`) -/

/-- One consumer task: pop frames, parse each with the byte-scan parser
into a local table (`StationRecords::read_from_reader`). -/
def workerRun (frames : List (List Nat)) : StationRecords :=
  (frames.map lineParseList).flatten.foldl
    (fun acc p => recInsert p.1 p.2 acc) StationRecords.empty

/-- `task::read_from_reader`: spawn one worker per part and fold the local
tables into a fresh table with `+=`, in worker order. -/
def coordinate (parts : List (List (List Nat))) : StationRecords :=
  (parts.map workerRun).foldl recMerge StationRecords.empty

/-! ### Configuration (`config.rs`) -/

/-- `config::MAX_LINE_LENGTH`. -/
def MAX_LINE_LENGTH : Nat := 30

/-- `config::CHUNK_SIZE`. -/
def CHUNK_SIZE : Nat := 65536 * 8

/-- `config::MAX_CHUNK_SIZE`. -/
def MAX_CHUNK_SIZE : Nat := CHUNK_SIZE * 16 + MAX_LINE_LENGTH

/-! ### The chunking reader (`reader/models.rs`, `reader/func.rs`) -/

/-- `func::buffer_full`: `len >= capacity - chunk_size - MAX_LINE_LENGTH`,
with `usize` (truncating `Nat`) subtraction. -/
def buffer_full (len capacity chunk_size : Nat) : Bool :=
  decide (capacity - chunk_size - MAX_LINE_LENGTH ≤ len)

/-- The flush condition of `RowsReader::read`: EOF (zero bytes read), or
export buffer full, or a consumer waiting on the input queue. -/
def flush_trigger (bytes_read len capacity chunk_size : Nat) (waiting : Bool) : Bool :=
  decide (bytes_read = 0) || buffer_full len capacity chunk_size || waiting

/-- The chunk-read / flush loop of `RowsReader::read`, with fuel; returns
the frames pushed to the output queue, in order.  `sched i` supplies, for
iteration `i`, the environment's nondeterminism: `(sched i).1 + 1` is the
number of bytes the underlying stream yields for this fixed-size read
(clamped by the remaining stream; a well-behaved reader returns 0 only at
EOF), and `(sched i).2` is whether a consumer is waiting on the input
queue at this instant.  `rem` is the unread stream suffix, `exp` the
export buffer.  `capacity` is the export buffer's capacity (its initial
reservation; reallocation growth is not modelled — the flush decision is
irrelevant to the line-alignment claims, which hold for every decision
pattern).  Empty buffers are never pushed (`export_buffer` skips them),
and the loop breaks when the line-completing read returns 0 bytes. -/
def rowsRead (chunk_size capacity : Nat) :
    Nat → List Nat → List Nat → (Nat → Nat × Bool) → Nat → List (List Nat)
  | 0, _, _, _, _ => []
  | fuel + 1, rem, exp, sched, i =>
    let k := Min.min ((sched i).1 + 1) rem.length
    let exp2 := exp ++ rem.take k
    let rem2 := rem.drop k
    if flush_trigger k exp2.length capacity chunk_size (sched i).2 then
      let p := read_until nlByte rem2
      let frame := exp2 ++ p.1
      (if frame.length ≠ 0 then [frame] else []) ++
        (if p.1.length = 0 then [] else rowsRead chunk_size capacity fuel p.2 [] sched (i + 1))
    else rowsRead chunk_size capacity fuel rem2 exp2 sched (i + 1)

/-- All frames `RowsReader::read` hands off on a given stream under a
given nondeterminism schedule (the loop consumes at least one byte of the
stream per iteration until EOF, so `length + 1` rounds of fuel always
suffice). -/
def rowsReaderRun (chunk_size capacity : Nat) (stream : List Nat)
    (sched : Nat → Nat × Bool) : List (List Nat) :=
  rowsRead chunk_size capacity (stream.length + 1) stream [] sched 0

/-- Splitting a byte buffer after each newline, with fuel: the lines a
frame consists of. -/
def chopRun : Nat → List Nat → List (List Nat)
  | 0, _ => []
  | _, [] => []
  | fuel + 1, l =>
    let p := read_until nlByte l
    p.1 :: chopRun fuel p.2

/-- The decomposition of a frame into its constituent lines (each line
including its terminating newline, except possibly the last piece). -/
def chopLines (l : List Nat) : List (List Nat) :=
  chopRun (l.length + 1) l

/-- The reader-side constructor state (`RowsReader::with_chunk_sizes` and
`RowsReader::new` store these two sizes). -/
structure RowsReaderCfg where
  chunk_size : Nat
  max_chunk_size : Nat
deriving DecidableEq, Repr

/-- `RowsReader::new()`: the compile-time default sizes, unclamped. -/
def RowsReader.new : RowsReaderCfg :=
  ⟨CHUNK_SIZE, MAX_CHUNK_SIZE⟩

/-- `RowsReader::with_chunk_sizes(chunk_size, max_chunk_size)`: the read
chunk size is clamped up to `MAX_LINE_LENGTH`, the maximum chunk size is
stored unchanged. -/
def RowsReader.with_chunk_sizes (c m : Nat) : RowsReaderCfg :=
  ⟨Max.max MAX_LINE_LENGTH c, m⟩

/-- `AtomicBool::compare_exchange(current, new, ..)` on the modelled flag
value: returns whether the exchange succeeded, and the new flag value. -/
def compare_exchange (flag current new : Bool) : Bool × Bool :=
  if flag = current then (true, new) else (false, flag)

/-- The guard at the top of `RowsReader::read`: try to flip `in_progress`
from `false` to `true`; on failure the call panics before reading any
bytes (`none`), on success it proceeds with the flag set (`some flag`). -/
def readGuard (inProgress : Bool) : Option Bool :=
  let r := compare_exchange inProgress false true
  if r.1 then some r.2 else none

/-- The outcomes of `n` successive `read` calls on one reader instance
whose `in_progress` flag starts at `flag`: `true` means the call proceeded
past the guard, `false` means it panicked there. -/
def readCalls : Nat → Bool → List Bool
  | 0, _ => []
  | n + 1, flag =>
    match readGuard flag with
    | some flag2 => true :: readCalls n flag2
    | none => false :: readCalls n flag

/-! ### Well-formed frames -/

/-- A line, as a `(name, value)` pair of byte strings. -/
abbrev RawLine : Type := List Nat × List Nat

/-- The on-disk bytes of a line: `name ; value \n`. -/
def lineBytes (l : RawLine) : List Nat :=
  l.1 ++ semiByte :: (l.2 ++ [nlByte])

/-- The on-disk bytes of a sequence of lines. -/
def linesBytes : List RawLine → List Nat
  | [] => []
  | l :: ls => lineBytes l ++ linesBytes ls

/-- A well-formed station name: non-empty, at most 30 bytes (the input
contract of §1/§6 of the spec), and free of both separators. -/
def WfName (n : List Nat) : Prop :=
  n ≠ [] ∧ n.length ≤ 30 ∧ ∀ b ∈ n, b ≠ semiByte ∧ b ≠ nlByte

/-- A byte is an ASCII digit. -/
def IsDigit (b : Nat) : Prop := 48 ≤ b ∧ b ≤ 57

instance (b : Nat) : Decidable (IsDigit b) := by
  unfold IsDigit; infer_instance

/-- A well-formed temperature token, matching `-?[0-9]{1,3}\.[0-9]`. -/
def WfValue (v : List Nat) : Prop :=
  ∃ s ds f, (s = [] ∨ s = [45]) ∧ ds ≠ [] ∧ ds.length ≤ 3 ∧
    (∀ b ∈ ds, IsDigit b) ∧ IsDigit f ∧ v = s ++ ds ++ [46, f]

/-- A well-formed line. -/
def WfLine (l : RawLine) : Prop := WfName l.1 ∧ WfValue l.2

/-- One step of reading a decimal numeral. -/
def dvStep (a : Int) (d : Nat) : Int := a * 10 + ((d : Int) - 48)

/-- The number denoted by a string of ASCII digits. -/
def digitsVal (ds : List Nat) : Int :=
  ds.foldl dvStep 0

/-- The numeric reading of a well-formed token `s ++ ds ++ [46, f]`
scaled by 10: sign times (integer part times 10 plus the fractional
digit). -/
def tokenScaled (s ds : List Nat) (f : Nat) : Int :=
  (if s = [45] then -1 else 1) * (digitsVal ds * 10 + ((f : Int) - 48))

/-- The value the byte-scan parser assigns to an unterminated trailing
token: the sign from the first byte, then the digit fold over all but the
LAST byte of the token (the byte `parse_value` unconditionally drops in
lieu of a newline). -/
def truncScaled (v : List Nat) : Int :=
  parse_value_fold (v.take (v.length - 1)) * (if v.headD 0 = 45 then -1 else 1)

/-- The structural conditions on a line that the separator-gap analysis of
the SIMD window needs: non-empty name, and no separator bytes inside name
or value. -/
def SepWf (l : RawLine) : Prop :=
  l.1 ≠ [] ∧ (∀ b ∈ l.1, b ≠ semiByte ∧ b ≠ nlByte) ∧
    ∀ b ∈ l.2, b ≠ semiByte ∧ b ≠ nlByte

/-- The shapes a cut-off partial line at the end of a 64-byte window can
take: either separator-free bytes (a name fragment), or a full name, the
semicolon, and a separator-free value fragment. -/
def ExtraOk (e : List Nat) : Prop :=
  (∀ b ∈ e, b ≠ semiByte ∧ b ≠ nlByte) ∨
    ∃ pre t, pre ≠ [] ∧ (∀ b ∈ pre, b ≠ semiByte ∧ b ≠ nlByte) ∧
      (∀ b ∈ t, b ≠ semiByte ∧ b ≠ nlByte) ∧ e = pre ++ semiByte :: t

/-- Greedily take whole lines while their byte length fits the window
budget `w`; returns the fitting prefix and the rest. -/
def fitLines : List RawLine → Nat → List RawLine × List RawLine
  | [], _ => ([], [])
  | l :: ls, w =>
    if (lineBytes l).length ≤ w then
      let p := fitLines ls (w - (lineBytes l).length)
      (l :: p.1, p.2)
    else ([], l :: ls)

/-! ## Theorems

General helper lemmas first, then the per-claim results. -/

theorem foldl_lor_init (g : Nat × Nat → Nat) :
    ∀ (l : List (Nat × Nat)) (a : Nat),
      l.foldl (fun acc p => acc ||| g p) a =
        a ||| l.foldl (fun acc p => acc ||| g p) 0
  | [], a => by simp
  | x :: l, a => by
    simp only [List.foldl_cons]
    rw [foldl_lor_init g l (a ||| g x), foldl_lor_init g l (0 ||| g x)]
    rw [Nat.zero_or, Nat.or_assoc]

theorem read_until_append_sep (sep : Nat) (post : List Nat) :
    ∀ pre : List Nat, (∀ b ∈ pre, b ≠ sep) →
      read_until sep (pre ++ sep :: post) = (pre ++ [sep], post)
  | [], _ => by simp [read_until]
  | b :: pre, h => by
    have hb : b ≠ sep := h b (by simp)
    have ih := read_until_append_sep sep post pre (fun x hx => h x (by simp [hx]))
    simp [read_until, hb, ih]

theorem read_until_no_sep (sep : Nat) :
    ∀ l : List Nat, (∀ b ∈ l, b ≠ sep) → read_until sep l = (l, [])
  | [], _ => rfl
  | b :: l, h => by
    have hb : b ≠ sep := h b (by simp)
    have ih := read_until_no_sep sep l (fun x hx => h x (by simp [hx]))
    simp only [read_until, if_neg hb, ih]

theorem read_until_append_eq (sep : Nat) :
    ∀ l : List Nat, (read_until sep l).1 ++ (read_until sep l).2 = l
  | [] => rfl
  | b :: l => by
    by_cases hb : b = sep
    · simp [read_until, hb]
    · simpa [read_until, hb] using read_until_append_eq sep l

theorem read_until_fst_nil (sep : Nat) :
    ∀ l : List Nat, (read_until sep l).1 = [] ↔ l = []
  | [] => by simp [read_until]
  | b :: l => by
    by_cases hb : b = sep <;> simp [read_until, hb]

theorem read_until_last :
    ∀ l : List Nat,
      (read_until nlByte l).1.getLast? = some nlByte ∨ (read_until nlByte l).2 = []
  | [] => Or.inr rfl
  | b :: l => by
    by_cases hb : b = nlByte
    · exact Or.inl (by simp [read_until, hb])
    · rcases read_until_last l with h | h
      · left
        rcases hx : (read_until nlByte l).1 with _ | ⟨c, t⟩
        · rw [hx] at h; simp at h
        · simp only [read_until, if_neg hb, hx]
          rw [hx] at h
          rw [List.getLast?_cons_cons]
          exact h
      · right
        simp only [read_until, if_neg hb]
        exact h

/-! ### Value-token arithmetic -/

theorem isDigit_ascii {b : Nat} (h : IsDigit b) : is_ascii_digit b = true := by
  rcases h with ⟨h1, h2⟩
  simp [is_ascii_digit, h1, h2]

theorem isDigit_ne_sep {b : Nat} (h : IsDigit b) : b ≠ semiByte ∧ b ≠ nlByte := by
  rcases h with ⟨h1, h2⟩
  simp only [semiByte, nlByte]
  omega

theorem pvStep_digit {d : Nat} (h : IsDigit d) (a : Int) :
    pvStep a d = dvStep a d := by
  rcases h with ⟨h1, h2⟩
  have hc : (u8_to_digit d : Int) = (d : Int) - 48 := by
    have : u8_to_digit d = d - 48 := by unfold u8_to_digit; omega
    rw [this]; omega
  simp only [pvStep, dvStep, isDigit_ascii ⟨h1, h2⟩, if_true, hc]

theorem pvStep_skip {d : Nat} (h : ¬ IsDigit d) (a : Int) : pvStep a d = a := by
  have : is_ascii_digit d = false := by
    simp only [is_ascii_digit, Bool.and_eq_false_iff]
    by_cases h1 : 48 ≤ d
    · right; simp only [decide_eq_false_iff_not]; intro h2; exact h ⟨h1, h2⟩
    · left; simp only [decide_eq_false_iff_not]; exact h1
  simp [pvStep, this]

theorem dtnStep_digit {d : Nat} (h : IsDigit d) (st : Int × Int) :
    dtnStep st d = (dvStep st.1 d, st.2) := by
  rcases h with ⟨h1, h2⟩
  have hc : (u8_to_digit d : Int) = (d : Int) - 48 := by
    have : u8_to_digit d = d - 48 := by unfold u8_to_digit; omega
    rw [this]; omega
  simp only [dtnStep, dvStep, isDigit_ascii ⟨h1, h2⟩, if_true, hc]

theorem dtnStep_46 (st : Int × Int) : dtnStep st 46 = st := by
  simp [dtnStep, is_ascii_digit]

theorem dtnStep_45 (st : Int × Int) : dtnStep st 45 = (st.1, -1) := by
  simp [dtnStep, is_ascii_digit]

theorem pv_fold_digits {ds : List Nat} (h : ∀ b ∈ ds, IsDigit b) :
    ∀ a : Int, ds.foldl pvStep a = ds.foldl dvStep a := by
  induction ds with
  | nil => intro a; rfl
  | cons d ds ih =>
    intro a
    simp only [List.foldl_cons, pvStep_digit (h d (by simp))]
    exact ih (fun b hb => h b (by simp [hb])) _

theorem dtn_fold_digits {ds : List Nat} (h : ∀ b ∈ ds, IsDigit b) :
    ∀ a m : Int, ds.foldl dtnStep (a, m) = (ds.foldl dvStep a, m) := by
  induction ds with
  | nil => intro a m; rfl
  | cons d ds ih =>
    intro a m
    simp only [List.foldl_cons, dtnStep_digit (h d (by simp))]
    exact ih (fun b hb => h b (by simp [hb])) _ _

theorem token_no_byte {s ds : List Nat} {f c : Nat}
    (hs : s = [] ∨ s = [45]) (hdig : ∀ b ∈ ds, IsDigit b) (hf : IsDigit f)
    (h45 : c ≠ 45) (h46 : c ≠ 46) (hdigc : ¬ IsDigit c) :
    ∀ b ∈ s ++ ds ++ [46, f], b ≠ c := by
  intro b hb
  rcases List.mem_append.1 hb with hb | hb
  · rcases List.mem_append.1 hb with hb | hb
    · rcases hs with rfl | rfl
      · simp at hb
      · simp at hb; subst hb; exact fun hc => h45 hc.symm
    · intro hc; subst hc; exact hdigc (hdig b hb)
  · simp at hb
    rcases hb with rfl | rfl
    · exact fun hc => h46 hc.symm
    · intro hc; subst hc; exact hdigc hf

/-- `digits_to_number` on a well-formed token. -/
theorem digits_to_number_token {s ds : List Nat} {f : Nat}
    (hs : s = [] ∨ s = [45]) (hdig : ∀ b ∈ ds, IsDigit b)
    (hf : IsDigit f) :
    digits_to_number (s ++ ds ++ [46, f]) = tokenScaled s ds f := by
  unfold digits_to_number tokenScaled digitsVal
  simp only [List.foldl_append]
  rcases hs with rfl | rfl
  · simp only [List.foldl_nil, if_neg (by simp : ¬ ([] : List Nat) = [45])]
    rw [dtn_fold_digits hdig 0 1]
    simp only [List.foldl_cons, List.foldl_nil, dtnStep_46, dtnStep_digit hf]
    simp [dvStep]
  · simp only [List.foldl_cons, List.foldl_nil, dtnStep_45, if_pos rfl]
    rw [dtn_fold_digits hdig 0 (-1)]
    simp only [dtnStep_46, dtnStep_digit hf]
    simp [dvStep, mul_comm]

/-- `parse_value` on a stream starting with a well-formed token followed
by a newline: consumes through the newline and returns the scaled
reading. -/
theorem parse_value_token {s ds : List Nat} {f : Nat} (rest : List Nat)
    (hs : s = [] ∨ s = [45]) (hne : ds ≠ []) (hdig : ∀ b ∈ ds, IsDigit b)
    (hf : IsDigit f) :
    parse_value ((s ++ ds ++ [46, f]) ++ nlByte :: rest) =
      (tokenScaled s ds f, rest) := by
  have hno : ∀ b ∈ s ++ ds ++ [46, f], b ≠ nlByte :=
    token_no_byte hs hdig hf (by simp [nlByte]) (by simp [nlByte])
      (by simp only [IsDigit, nlByte]; omega)
  unfold parse_value
  rw [read_until_append_sep nlByte rest _ hno]
  simp only
  have hlen : ((s ++ ds ++ [46, f]) ++ [nlByte]).length - 1 = (s ++ ds ++ [46, f]).length := by
    simp
  rw [hlen, List.take_left]
  have hhead : (((s ++ ds ++ [46, f]) ++ [nlByte]).headD 0 = 45) ↔ s = [45] := by
    rcases hs with rfl | rfl
    · rcases ds with _ | ⟨d, ds⟩
      · exact absurd rfl hne
      · have hd := hdig d (by simp)
        rcases hd with ⟨h1, h2⟩
        simp only [List.nil_append, List.cons_append, List.headD_cons]
        constructor
        · intro h; omega
        · intro h; simp at h
    · simp
  unfold parse_value_fold tokenScaled digitsVal
  simp only [List.foldl_append]
  by_cases hsgn : s = [45]
  · subst hsgn
    rw [if_pos (hhead.2 rfl), if_pos rfl]
    simp only [List.foldl_cons, List.foldl_nil,
      pvStep_skip (by simp only [IsDigit]; omega : ¬ IsDigit 45),
      pvStep_skip (by simp only [IsDigit]; omega : ¬ IsDigit 46), pvStep_digit hf]
    rw [pv_fold_digits hdig 0]
    simp [dvStep, mul_comm]
  · have hs0 : s = [] := by rcases hs with h | h; exact h; exact absurd h hsgn
    subst hs0
    rw [if_neg (fun h => hsgn (hhead.1 h)), if_neg hsgn]
    simp only [List.foldl_cons, List.foldl_nil, List.nil_append,
      pvStep_skip (by simp only [IsDigit]; omega : ¬ IsDigit 46), pvStep_digit hf]
    rw [pv_fold_digits hdig 0]
    simp [dvStep]

/-! ### The byte-scan parser on structured frames -/

theorem parse_name_line {n : List Nat} (h : ∀ b ∈ n, b ≠ semiByte) (rest : List Nat) :
    parse_name (n ++ semiByte :: rest) = some (n, rest) := by
  unfold parse_name
  rw [read_until_append_sep semiByte rest n h]
  simp

theorem lineParseRun_nil : ∀ fuel, lineParseRun fuel [] = []
  | 0 => rfl
  | fuel + 1 => by
    simp [lineParseRun, parse_name, read_until]

theorem lineParseRun_cons (fuel : Nat) (l : RawLine) (R : List Nat) (hl : WfLine l) :
    lineParseRun (fuel + 1) (lineBytes l ++ R) =
      (l.1, digits_to_number l.2) :: lineParseRun fuel R := by
  rcases hl with ⟨⟨hne, hlen, hnosep⟩, s, ds, f, hs, hdne, hdl, hdig, hf, hveq⟩
  have hstream : lineBytes l ++ R = l.1 ++ semiByte :: (l.2 ++ nlByte :: R) := by
    simp [lineBytes]
  rw [hstream]
  simp only [lineParseRun,
    parse_name_line (fun b hb => (hnosep b hb).1) (l.2 ++ nlByte :: R)]
  rw [hveq]
  rw [show (s ++ ds ++ [46, f]) ++ nlByte :: R = (s ++ ds ++ [46, f]) ++ nlByte :: R from rfl]
  rw [parse_value_token R hs hdne hdig hf]
  rw [digits_to_number_token hs hdig hf]

theorem linesBytes_append_assoc (l : RawLine) (ls : List RawLine) :
    linesBytes (l :: ls) = lineBytes l ++ linesBytes ls := rfl

theorem length_le_linesBytes : ∀ ls : List RawLine, ls.length ≤ (linesBytes ls).length
  | [] => Nat.le_refl 0
  | l :: ls => by
    have ih := length_le_linesBytes ls
    have : 1 ≤ (lineBytes l).length := by
      simp only [lineBytes, List.length_append, List.length_cons]
      omega
    simp only [linesBytes, List.length_cons, List.length_append]
    omega

theorem lineParseRun_frame :
    ∀ (ls : List RawLine) (tail : List Nat) (fuel : Nat), (∀ l ∈ ls, WfLine l) →
      ls.length < fuel →
      lineParseRun fuel (linesBytes ls ++ tail) =
        ls.map (fun l => (l.1, digits_to_number l.2)) ++
          lineParseRun (fuel - ls.length) tail
  | [], tail, fuel, _, _ => by simp [linesBytes]
  | l :: ls, tail, fuel, hwf, hfuel => by
    rcases fuel with _ | fuel
    · omega
    rw [linesBytes_append_assoc, List.append_assoc]
    rw [lineParseRun_cons fuel l _ (hwf l (by simp))]
    rw [lineParseRun_frame ls tail fuel (fun x hx => hwf x (by simp [hx])) (by simpa using hfuel)]
    simp only [List.map_cons, List.cons_append, List.length_cons]
    rw [Nat.succ_sub_succ]

theorem lineParseRun_tail_unterminated (n v : List Nat)
    (hn : ∀ b ∈ n, b ≠ semiByte) (_hvne : v ≠ []) (hv : ∀ b ∈ v, b ≠ nlByte) :
    ∀ fuel, 2 ≤ fuel →
      lineParseRun fuel (n ++ semiByte :: v) = [(n, truncScaled v)] := by
  intro fuel hfuel
  rcases fuel with _ | _ | fuel
  · omega
  · omega
  simp only [lineParseRun, parse_name_line hn v]
  have hpv : parse_value v = (truncScaled v, []) := by
    unfold parse_value truncScaled
    rw [read_until_no_sep nlByte v hv]
  rw [hpv]
  simp [lineParseRun_nil, parse_name, read_until, lineParseRun]

/-! ### Separator positions of a window -/

theorem sepPosR_cons (b : Nat) (rest : List Nat) :
    sepPosR (b :: rest) =
      if b = semiByte ∨ b = nlByte then 0 :: (sepPosR rest).map (· + 1)
      else (sepPosR rest).map (· + 1) := rfl

theorem sepPos_eq_R : ∀ chunk : List Nat, sepPos chunk = sepPosR chunk
  | [] => rfl
  | b :: rest => by
    rw [sepPosR_cons]
    unfold sepPos
    simp only [List.length_cons]
    rw [List.range_succ_eq_map]
    rw [List.filter_cons]
    have hmap : (List.map Nat.succ (List.range rest.length)).filter (isSepAt (b :: rest)) =
        (List.filter (isSepAt rest) (List.range rest.length)).map Nat.succ := by
      rw [List.filter_map]
      have hcomp : (isSepAt (b :: rest)) ∘ Nat.succ = isSepAt rest := by
        funext i; simp [isSepAt]
      rw [hcomp]
    have hfold : List.filter (isSepAt rest) (List.range rest.length) = sepPos rest := rfl
    have hsucc : (sepPos rest).map Nat.succ = (sepPos rest).map (· + 1) := by
      apply List.map_congr_left; intro a _; rfl
    rw [hmap, hfold, hsucc, sepPos_eq_R rest]
    by_cases hb : b = semiByte ∨ b = nlByte
    · have : isSepAt (b :: rest) 0 = true := by
        rcases hb with rfl | rfl <;> simp [isSepAt]
      rw [if_pos this, if_pos hb]
    · have : isSepAt (b :: rest) 0 = false := by
        push_neg at hb
        simp [isSepAt, hb.1, hb.2]
      rw [if_neg (by simp [this]), if_neg hb]

theorem sepPosR_nosep : ∀ l : List Nat, (∀ b ∈ l, b ≠ semiByte ∧ b ≠ nlByte) →
    sepPosR l = []
  | [], _ => rfl
  | b :: l, h => by
    have hb := h b (by simp)
    rw [sepPosR_cons]
    rw [if_neg (by rcases hb with ⟨h1, h2⟩; rintro (rfl | rfl) <;> simp at h1 h2)]
    rw [sepPosR_nosep l (fun x hx => h x (by simp [hx]))]
    rfl

theorem sepPosR_append_nosep :
    ∀ pre rest : List Nat, (∀ b ∈ pre, b ≠ semiByte ∧ b ≠ nlByte) →
      sepPosR (pre ++ rest) = (sepPosR rest).map (· + pre.length)
  | [], rest, _ => by simp
  | b :: pre, rest, h => by
    have hb := h b (by simp)
    show sepPosR (b :: (pre ++ rest)) = _
    rw [sepPosR_cons]
    rw [if_neg (by rcases hb with ⟨h1, h2⟩; rintro (rfl | rfl) <;> simp at h1 h2)]
    rw [sepPosR_append_nosep pre rest (fun x hx => h x (by simp [hx]))]
    rw [List.map_map]
    apply List.map_congr_left
    intro a _
    simp only [Function.comp_apply, List.length_cons]
    omega

theorem sepPosR_sep_cons (s : Nat) (hs : s = semiByte ∨ s = nlByte) (rest : List Nat) :
    sepPosR (s :: rest) = 0 :: (sepPosR rest).map (· + 1) := by
  rw [sepPosR_cons, if_pos hs]

theorem sepPosR_line (pre : List Nat) (hpre : ∀ b ∈ pre, b ≠ semiByte ∧ b ≠ nlByte)
    (s : Nat) (hs : s = semiByte ∨ s = nlByte) (rest : List Nat) :
    sepPosR (pre ++ s :: rest) =
      pre.length :: (sepPosR rest).map (· + (pre.length + 1)) := by
  rw [sepPosR_append_nosep pre _ hpre, sepPosR_sep_cons s hs rest]
  simp only [List.map_cons, Nat.zero_add, List.map_map]
  congr 1
  apply List.map_congr_left
  intro a _
  simp only [Function.comp_apply]
  omega

theorem sepPosR_head_pos (l : List Nat)
    (h : l.headD 0 ≠ semiByte ∧ l.headD 0 ≠ nlByte) :
    ∀ q ∈ sepPosR l, 1 ≤ q := by
  rcases l with _ | ⟨b, rest⟩
  · intro q hq; simp [sepPosR] at hq
  · simp only [List.headD_cons] at h
    rw [sepPosR_cons]
    rw [if_neg (by rcases h with ⟨h1, h2⟩; rintro (rfl | rfl) <;> simp at h1 h2)]
    intro q hq
    rcases List.mem_map.1 hq with ⟨a, _, rfl⟩
    omega

/-! ### The separator-gap pipeline on structured windows -/

theorem map_windows_gaps_nil : map_windows_gaps [] = [] := rfl

theorem map_windows_gaps_single (x : Nat) : map_windows_gaps [x] = [] := rfl

theorem map_windows_gaps_cons2 (x y : Nat) (rest : List Nat) :
    map_windows_gaps (x :: y :: rest) =
      (if x = 0 then y - x else y - x - 1) :: map_windows_gaps (y :: rest) := rfl

theorem map_windows_gaps_shift :
    ∀ (qs : List Nat) (k a : Nat), 1 ≤ a → (∀ q ∈ qs, 1 ≤ q) →
      map_windows_gaps ((a + k) :: qs.map (· + k)) = map_windows_gaps (a :: qs)
  | [], _, _, _, _ => rfl
  | q :: qs, k, a, ha, hq => by
    simp only [List.map_cons]
    rw [map_windows_gaps_cons2, map_windows_gaps_cons2]
    rw [map_windows_gaps_shift qs k q (hq q (by simp)) (fun x hx => hq x (by simp [hx]))]
    rw [if_neg (by omega), if_neg (by omega)]
    congr 1
    omega

theorem map_windows_gaps_head_shift (qs : List Nat) (P : Nat) (hP : 1 ≤ P)
    (hq : ∀ q ∈ qs, 1 ≤ q) :
    map_windows_gaps (P :: qs.map (· + (P + 1))) = map_windows_gaps (0 :: qs) := by
  rcases qs with _ | ⟨q, qs⟩
  · rfl
  · simp only [List.map_cons]
    rw [map_windows_gaps_cons2, map_windows_gaps_cons2]
    rw [if_neg (by omega), if_pos rfl]
    have h1 : q + (P + 1) - P - 1 = q - 0 := by omega
    rw [h1]
    congr 1
    exact map_windows_gaps_shift qs (P + 1) q (hq q (by simp))
      (fun x hx => hq x (by simp [hx]))

theorem linesBytes_line_eq (l : RawLine) (R : List Nat) :
    lineBytes l ++ R = l.1 ++ semiByte :: (l.2 ++ nlByte :: R) := by
  simp [lineBytes]

theorem head_not_sep :
    ∀ (ls : List RawLine) (extra : List Nat), (∀ l ∈ ls, SepWf l) → ExtraOk extra →
      (linesBytes ls ++ extra).headD 0 ≠ semiByte ∧
        (linesBytes ls ++ extra).headD 0 ≠ nlByte
  | [], extra, _, hex => by
    rcases hex with hfree | ⟨pre, t, hpre_ne, hpre, _, rfl⟩
    · rcases extra with _ | ⟨e, extra⟩
      · simp [linesBytes, semiByte, nlByte]
      · simpa [linesBytes] using hfree e (by simp)
    · rcases pre with _ | ⟨p, pre⟩
      · exact absurd rfl hpre_ne
      · simpa [linesBytes] using hpre p (by simp)
  | l :: ls, extra, hwf, _ => by
    have hl := hwf l (by simp)
    rcases hl with ⟨hne, hn, _⟩
    rcases hx : l.1 with _ | ⟨c, n⟩
    · exact absurd hx hne
    · have hc := hn c (by simp [hx])
      have : linesBytes (l :: ls) ++ extra = c :: (n ++ semiByte :: (l.2 ++ nlByte :: linesBytes ls) ++ extra) := by
        rw [linesBytes_append_assoc, List.append_assoc, linesBytes_line_eq, hx]
        simp
      rw [this]
      simpa using hc

theorem gaps_struct :
    ∀ (ls : List RawLine) (extra : List Nat), (∀ l ∈ ls, SepWf l) → ExtraOk extra →
      array_chunks2 (map_windows_gaps (0 :: sepPosR (linesBytes ls ++ extra))) =
        ls.map (fun l => (l.1.length, l.2.length))
  | [], extra, _, hex => by
    rcases hex with hfree | ⟨pre, t, hpre_ne, hpre, ht, rfl⟩
    · rw [show linesBytes [] ++ extra = extra from by simp [linesBytes]]
      rw [sepPosR_nosep extra hfree]
      rfl
    · rw [show linesBytes [] ++ (pre ++ semiByte :: t) = pre ++ semiByte :: t from by
        simp [linesBytes]]
      rw [sepPosR_line pre hpre semiByte (Or.inl rfl) t, sepPosR_nosep t ht]
      rfl
  | l :: ls, extra, hwf, hex => by
    have hl := hwf l (by simp)
    rcases hl with ⟨hne, hn, hv⟩
    rw [linesBytes_append_assoc, List.append_assoc, linesBytes_line_eq]
    rw [sepPosR_line l.1 hn semiByte (Or.inl rfl)]
    rw [sepPosR_line l.2 hv nlByte (Or.inr rfl)]
    set R := linesBytes ls ++ extra with hR
    simp only [List.map_cons, List.map_map]
    rw [map_windows_gaps_cons2, map_windows_gaps_cons2]
    rw [if_pos rfl]
    have hn_ne : l.1.length ≠ 0 := by
      rcases hx : l.1 with _ | _
      · exact absurd hx hne
      · simp [hx]
    rw [if_neg hn_ne]
    have harith1 : l.1.length - 0 = l.1.length := by omega
    have harith2 : l.2.length + (l.1.length + 1) - l.1.length - 1 = l.2.length := by omega
    rw [harith1, harith2]
    have hcomp : ((fun x => x + (l.1.length + 1)) ∘ fun x => x + (l.2.length + 1)) =
        fun x => x + (l.2.length + (l.1.length + 1) + 1) := by
      funext x
      simp only [Function.comp_apply]
      omega
    rw [hcomp]
    rw [map_windows_gaps_head_shift (sepPosR R) (l.2.length + (l.1.length + 1))
      (by omega)
      (sepPosR_head_pos R (head_not_sep ls extra (fun x hx => hwf x (by simp [hx])) hex))]
    rw [show array_chunks2
          (l.1.length :: l.2.length :: map_windows_gaps (0 :: sepPosR R)) =
        (l.1.length, l.2.length) :: array_chunks2 (map_windows_gaps (0 :: sepPosR R)) from rfl]
    rw [hR, gaps_struct ls extra (fun x hx => hwf x (by simp [hx])) hex]
  termination_by ls => ls.length

/-! ### Window decomposition helpers -/

theorem take_append_of_le :
    ∀ (A B : List Nat) (n : Nat), A.length ≤ n →
      (A ++ B).take n = A ++ B.take (n - A.length)
  | [], B, n, _ => by simp
  | a :: A, B, n, h => by
    rcases n with _ | n
    · simp at h
    · simp only [List.cons_append, List.take_succ_cons, List.length_cons]
      rw [take_append_of_le A B n (by simpa using h)]
      simp [Nat.succ_sub_succ]

theorem take_append_of_ge :
    ∀ (A B : List Nat) (n : Nat), n ≤ A.length → (A ++ B).take n = A.take n
  | _, _, 0, _ => by simp
  | [], B, n + 1, h => by simp at h
  | a :: A, B, n + 1, h => by
    simp only [List.cons_append, List.take_succ_cons]
    rw [take_append_of_ge A B n (by simpa using h)]

theorem mem_take_subset {l : List Nat} {n b : Nat} (hb : b ∈ l.take n) : b ∈ l :=
  (List.take_prefix n l).subset hb

theorem find_separators_spec (chunk : List Nat) (h : chunk.length ≤ 64) :
    find_separators chunk = array_chunks2 (map_windows_gaps (0 :: sepPosR chunk)) := by
  unfold find_separators
  by_cases h64 : 64 ≤ chunk.length
  · have hlen : chunk.length = 64 := by omega
    rw [if_pos h64]
    unfold find_separators_simd sepPos64
    rw [← hlen]
    rw [show (List.range chunk.length).filter (isSepAt chunk) = sepPos chunk from rfl]
    rw [sepPos_eq_R]
  · rw [if_neg h64]
    unfold find_separators_iter
    rw [sepPos_eq_R]

theorem extraOk_nil : ExtraOk [] := Or.inl (by simp)

theorem extraOk_take {e : List Nat} (he : ExtraOk e) (r : Nat) : ExtraOk (e.take r) := by
  rcases he with hfree | ⟨pre, t, hpre_ne, hpre, ht, rfl⟩
  · exact Or.inl (fun b hb => hfree b (mem_take_subset hb))
  · by_cases hr : r ≤ pre.length
    · rw [take_append_of_ge pre (semiByte :: t) r hr]
      exact Or.inl (fun b hb => hpre b (mem_take_subset hb))
    · rw [take_append_of_le pre (semiByte :: t) r (by omega)]
      have : semiByte :: t = [semiByte] ++ t := rfl
      rcases hq : r - pre.length with _ | q
      · omega
      · right
        refine ⟨pre, t.take q, hpre_ne, hpre, fun b hb => ht b (mem_take_subset hb), ?_⟩
        simp

theorem extraOk_lineBytes_take (l : RawLine) (hl : SepWf l) (r : Nat)
    (hr : r < (lineBytes l).length) : ExtraOk ((lineBytes l).take r) := by
  rcases hl with ⟨hne, hn, hv⟩
  have hlen : (lineBytes l).length = l.1.length + (l.2.length + 2) := by
    simp [lineBytes]
  unfold lineBytes
  by_cases hr1 : r ≤ l.1.length
  · rw [take_append_of_ge _ _ r hr1]
    exact Or.inl (fun b hb => hn b (mem_take_subset hb))
  · rw [take_append_of_le _ _ r (by omega)]
    rcases hq : r - l.1.length with _ | q
    · omega
    · have hq2 : q ≤ l.2.length := by
        rw [hlen] at hr
        omega
      right
      refine ⟨l.1, l.2.take q, hne, hn, fun b hb => hv b (mem_take_subset hb), ?_⟩
      simp only [List.take_succ_cons]
      rw [take_append_of_ge l.2 [nlByte] q hq2]

theorem linesBytes_append :
    ∀ a b : List RawLine, linesBytes (a ++ b) = linesBytes a ++ linesBytes b
  | [], b => by simp [linesBytes]
  | l :: a, b => by
    simp only [List.cons_append, linesBytes_append_assoc, linesBytes_append a b,
      List.append_assoc]

theorem fitLines_append : ∀ (ls : List RawLine) (w : Nat),
    (fitLines ls w).1 ++ (fitLines ls w).2 = ls
  | [], _ => rfl
  | l :: ls, w => by
    unfold fitLines
    by_cases h : (lineBytes l).length ≤ w
    · simp only [if_pos h, List.cons_append, fitLines_append ls (w - (lineBytes l).length)]
    · simp [if_neg h]

theorem fitLines_fits : ∀ (ls : List RawLine) (w : Nat),
    (linesBytes (fitLines ls w).1).length ≤ w
  | [], _ => by simp [fitLines, linesBytes]
  | l :: ls, w => by
    unfold fitLines
    by_cases h : (lineBytes l).length ≤ w
    · simp only [if_pos h]
      have ih := fitLines_fits ls (w - (lineBytes l).length)
      simp only [linesBytes_append_assoc, List.length_append]
      omega
    · simp [if_neg h, linesBytes]

theorem fitLines_cut : ∀ (ls : List RawLine) (w : Nat) (l0 : RawLine) (ls2 : List RawLine),
    (fitLines ls w).2 = l0 :: ls2 →
      w < (linesBytes (fitLines ls w).1).length + (lineBytes l0).length
  | [], w, l0, ls2, h => by simp [fitLines] at h
  | l :: ls, w, l0, ls2, h => by
    unfold fitLines at h ⊢
    by_cases hfit : (lineBytes l).length ≤ w
    · rw [if_pos hfit] at h ⊢
      simp only at h
      have ih := fitLines_cut ls (w - (lineBytes l).length) l0 ls2 h
      simp only [linesBytes_append_assoc, List.length_append]
      omega
    · rw [if_neg hfit] at h ⊢
      simp only at h
      rcases h with ⟨rfl, rfl⟩
      simp [linesBytes]
      omega

/-! ### Running the SIMD parser over a structured buffer -/

theorem parse_line_with_queue (cursor : Nat) (buffer : List Nat) (g1 g2 : Nat)
    (tail : List (Nat × Nat)) :
    LineParser.parse_line ⟨cursor, buffer, (g1, g2) :: tail⟩ =
      some (((buffer.drop cursor).take g1,
          digits_to_number ((buffer.drop (cursor + g1 + 1)).take g2)),
        ⟨cursor + g1 + 1 + g2 + 1, buffer, tail⟩) := by
  unfold LineParser.parse_line
  rw [if_neg (by simp)]

theorem window_take (cursor : Nat) (buffer : List Nat) (q : List (Nat × Nat)) :
    LineParser.window ⟨cursor, buffer, q⟩ = (buffer.drop cursor).take 64 := rfl

theorem simdRun_stop (extra : List Nat) (hex : ExtraOk extra) :
    ∀ (fuel cursor : Nat) (buffer : List Nat), buffer.drop cursor = extra →
      simdRun fuel ⟨cursor, buffer, []⟩ = []
  | 0, _, _, _ => rfl
  | fuel + 1, cursor, buffer, hdrop => by
    have hnone : LineParser.parse_line ⟨cursor, buffer, []⟩ = none := by
      unfold LineParser.parse_line
      by_cases hcur : cursor < buffer.length
      · rw [if_pos ⟨rfl, hcur⟩]
        have hfs : find_separators (LineParser.window ⟨cursor, buffer, []⟩) = [] := by
          rw [window_take, hdrop]
          rw [find_separators_spec (extra.take 64) (by
            rw [List.length_take]; omega)]
          have hg := gaps_struct [] (extra.take 64) (by simp) (extraOk_take hex 64)
          simpa [linesBytes] using hg
        rw [hfs]
      · rw [if_neg (fun hc => hcur hc.2)]
    simp only [simdRun, hnone]

theorem simdRun_pop :
    ∀ (ls1 : List RawLine) (buffer : List Nat) (cursor fuel : Nat) (rest2 : List Nat),
      buffer.drop cursor = linesBytes ls1 ++ rest2 →
      simdRun (fuel + ls1.length)
          ⟨cursor, buffer, ls1.map (fun l => (l.1.length, l.2.length))⟩ =
        ls1.map (fun l => (l.1, digits_to_number l.2)) ++
          simdRun fuel ⟨cursor + (linesBytes ls1).length, buffer, []⟩
  | [], buffer, cursor, fuel, rest2, _ => by
    simp [linesBytes]
  | l :: ls1, buffer, cursor, fuel, rest2, hdrop => by
    have hdrop1 : buffer.drop cursor =
        l.1 ++ semiByte :: (l.2 ++ nlByte :: (linesBytes ls1 ++ rest2)) := by
      rw [hdrop, linesBytes_append_assoc, List.append_assoc, linesBytes_line_eq]
    have hname : (buffer.drop cursor).take l.1.length = l.1 := by
      rw [hdrop1]
      exact List.take_left l.1 _
    have hdrop2 : buffer.drop (cursor + l.1.length + 1) =
        l.2 ++ nlByte :: (linesBytes ls1 ++ rest2) := by
      have h1 : buffer.drop (cursor + l.1.length + 1) =
          (buffer.drop cursor).drop (l.1.length + 1) := by
        rw [List.drop_drop]
        congr 1
      rw [h1, hdrop1]
      have h2 : l.1 ++ semiByte :: (l.2 ++ nlByte :: (linesBytes ls1 ++ rest2)) =
          (l.1 ++ [semiByte]) ++ (l.2 ++ nlByte :: (linesBytes ls1 ++ rest2)) := by
        simp
      rw [h2, List.drop_left' (by simp)]
    have hvalue : (buffer.drop (cursor + l.1.length + 1)).take l.2.length = l.2 := by
      rw [hdrop2]
      exact List.take_left l.2 _
    have hdrop3 : buffer.drop (cursor + l.1.length + 1 + l.2.length + 1) =
        linesBytes ls1 ++ rest2 := by
      have h1 : buffer.drop (cursor + l.1.length + 1 + l.2.length + 1) =
          (buffer.drop (cursor + l.1.length + 1)).drop (l.2.length + 1) := by
        rw [List.drop_drop]
        congr 1
      rw [h1, hdrop2]
      have h2 : l.2 ++ nlByte :: (linesBytes ls1 ++ rest2) =
          (l.2 ++ [nlByte]) ++ (linesBytes ls1 ++ rest2) := by
        simp
      rw [h2, List.drop_left' (by simp)]
    have hstep : fuel + (l :: ls1).length = (fuel + ls1.length) + 1 := by
      simp only [List.length_cons]
      omega
    rw [hstep]
    simp only [List.map_cons, simdRun, parse_line_with_queue, hname, hvalue]
    rw [simdRun_pop ls1 buffer (cursor + l.1.length + 1 + l.2.length + 1) fuel rest2 hdrop3]
    have hc : cursor + l.1.length + 1 + l.2.length + 1 + (linesBytes ls1).length =
        cursor + (linesBytes (l :: ls1)).length := by
      simp only [linesBytes_append_assoc, List.length_append, lineBytes,
        List.length_cons]
      simp
      omega
    rw [hc]
    simp

theorem simdRun_queue_eq (fuel cursor : Nat) (buffer : List Nat)
    (hcur : cursor < buffer.length) (q : List (Nat × Nat))
    (hq : find_separators (LineParser.window ⟨cursor, buffer, []⟩) = q)
    (hqne : q ≠ []) :
    simdRun (fuel + 1) ⟨cursor, buffer, []⟩ = simdRun (fuel + 1) ⟨cursor, buffer, q⟩ := by
  have h1 : LineParser.parse_line ⟨cursor, buffer, []⟩ =
      LineParser.parse_line ⟨cursor, buffer, q⟩ := by
    unfold LineParser.parse_line
    rw [if_pos ⟨rfl, hcur⟩, if_neg (fun hc => hqne hc.1)]
    rw [hq]
  simp only [simdRun, h1]

theorem simdRun_frames :
    ∀ (N : Nat) (ls : List RawLine) (tail buffer : List Nat) (cursor fuel : Nat),
      ls.length ≤ N →
      (∀ l ∈ ls, SepWf l ∧ (lineBytes l).length ≤ 64) →
      ExtraOk tail →
      buffer.drop cursor = linesBytes ls ++ tail →
      ls.length < fuel →
      simdRun fuel ⟨cursor, buffer, []⟩ =
        ls.map (fun l => (l.1, digits_to_number l.2)) := by
  intro N
  induction N with
  | zero =>
    intro ls tail buffer cursor fuel hN _ hex hdrop _
    have : ls = [] := List.length_eq_zero.1 (by omega)
    subst this
    rw [simdRun_stop tail hex fuel cursor buffer (by simpa [linesBytes] using hdrop)]
    rfl
  | succ N ih =>
    intro ls tail buffer cursor fuel hN hwf hex hdrop hfuel
    rcases hls : ls with _ | ⟨l, ls'⟩
    · rw [simdRun_stop tail hex fuel cursor buffer (by
        rw [hdrop, hls]
        simp [linesBytes])]
      rfl
    subst hls
    have h64 : (lineBytes l).length ≤ 64 := (hwf l (by simp)).2
    set ls1 := (fitLines (l :: ls') 64).1 with hls1
    set ls2 := (fitLines (l :: ls') 64).2 with hls2
    have hsplit : ls1 ++ ls2 = l :: ls' := fitLines_append (l :: ls') 64
    have hfits : (linesBytes ls1).length ≤ 64 := fitLines_fits (l :: ls') 64
    have hmem1 : ∀ x ∈ ls1, x ∈ l :: ls' := by
      intro x hx
      rw [← hsplit]
      exact List.mem_append.2 (Or.inl hx)
    have hmem2 : ∀ x ∈ ls2, x ∈ l :: ls' := by
      intro x hx
      rw [← hsplit]
      exact List.mem_append.2 (Or.inr hx)
    have hls1_ne : ls1 ≠ [] := by
      rw [hls1]
      unfold fitLines
      rw [if_pos h64]
      simp
    have hdrop2 : buffer.drop cursor = linesBytes ls1 ++ (linesBytes ls2 ++ tail) := by
      rw [hdrop, ← hsplit, linesBytes_append, List.append_assoc]
    have hwin : (buffer.drop cursor).take 64 =
        linesBytes ls1 ++ (linesBytes ls2 ++ tail).take (64 - (linesBytes ls1).length) := by
      rw [hdrop2, take_append_of_le _ _ 64 hfits]
    have hex2 : ExtraOk ((linesBytes ls2 ++ tail).take (64 - (linesBytes ls1).length)) := by
      rcases hx2 : ls2 with _ | ⟨l0, ls2t⟩
      · rw [show linesBytes [] ++ tail = tail from by simp [linesBytes]]
        exact extraOk_take hex _
      · have hcut := fitLines_cut (l :: ls') 64 l0 ls2t (by rw [← hls2, hx2])
        rw [← hls1] at hcut
        have hr : 64 - (linesBytes ls1).length < (lineBytes l0).length := by
          omega
        rw [linesBytes_append_assoc, List.append_assoc]
        rw [take_append_of_ge _ _ _ (by omega)]
        exact extraOk_lineBytes_take l0 (hwf l0 (hmem2 l0 (by simp [hx2]))).1 _ hr
    have hfs : find_separators (LineParser.window ⟨cursor, buffer, []⟩) =
        ls1.map (fun x => (x.1.length, x.2.length)) := by
      rw [window_take, hwin]
      rw [find_separators_spec _ (by
        simp only [List.length_append, List.length_take]
        omega)]
      have := gaps_struct ls1 ((linesBytes ls2 ++ tail).take (64 - (linesBytes ls1).length))
        (fun x hx => (hwf x (hmem1 x hx)).1) hex2
      exact this
    have hcur : cursor < buffer.length := by
      have hlen := congrArg List.length hdrop
      simp only [List.length_drop, List.length_append] at hlen
      have h1 : 1 ≤ (linesBytes (l :: ls')).length := by
        rw [linesBytes_append_assoc]
        simp only [List.length_append]
        have : 1 ≤ (lineBytes l).length := by
          simp only [lineBytes, List.length_append, List.length_cons]
          omega
        omega
      omega
    rcases fuel with _ | fuel
    · omega
    rw [simdRun_queue_eq fuel cursor buffer hcur _ hfs (by
      intro hbad
      exact hls1_ne (by simpa using congrArg (List.map Prod.fst) hbad))]
    have hfuel1 : ls1.length ≤ fuel := by
      have := congrArg List.length hsplit
      simp only [List.length_append, List.length_cons] at this hfuel
      omega
    obtain ⟨k, hk⟩ : ∃ k, fuel + 1 = k + ls1.length := ⟨fuel + 1 - ls1.length, by omega⟩
    rw [hk]
    rw [simdRun_pop ls1 buffer cursor k (linesBytes ls2 ++ tail) hdrop2]
    have hdrop3 : buffer.drop (cursor + (linesBytes ls1).length) =
        linesBytes ls2 ++ tail := by
      have h1 : buffer.drop (cursor + (linesBytes ls1).length) =
          (buffer.drop cursor).drop (linesBytes ls1).length := by
        rw [List.drop_drop]
      rw [h1, hdrop2, List.drop_left]
    have hlen2 : ls2.length ≤ N := by
      have := congrArg List.length hsplit
      simp only [List.length_append, List.length_cons] at this hN
      have h1 : 1 ≤ ls1.length := by
        rcases hy : ls1 with _ | _
        · exact absurd hy hls1_ne
        · simp
      omega
    rw [ih ls2 tail buffer (cursor + (linesBytes ls1).length) k hlen2
      (fun x hx => hwf x (hmem2 x hx)) hex hdrop3 (by
        have := congrArg List.length hsplit
        simp only [List.length_append, List.length_cons] at this hfuel
        have h1 : 1 ≤ ls1.length := by
          rcases hy : ls1 with _ | _
          · exact absurd hy hls1_ne
          · simp
        omega)]
    rw [← List.map_append, hsplit]

/-! ### Frame-level parser results -/

theorem wfLine_struct {l : RawLine} (h : WfLine l) :
    SepWf l ∧ (lineBytes l).length ≤ 64 := by
  rcases h with ⟨⟨hne, hlen, hnosep⟩, s, ds, f, hs, hdne, hdl, hdig, hf, hveq⟩
  constructor
  · refine ⟨hne, hnosep, ?_⟩
    intro b hb
    rw [hveq] at hb
    constructor
    · exact token_no_byte hs hdig hf (by simp [semiByte]) (by simp [semiByte])
        (by simp only [IsDigit, semiByte]; omega) b hb
    · exact token_no_byte hs hdig hf (by simp [nlByte]) (by simp [nlByte])
        (by simp only [IsDigit, nlByte]; omega) b hb
  · have hslen : s.length ≤ 1 := by
      rcases hs with rfl | rfl <;> simp
    have h2 : l.2.length ≤ 6 := by
      rw [hveq]
      simp only [List.length_append, List.length_cons, List.length_nil]
      omega
    simp only [lineBytes, List.length_append, List.length_cons, List.length_nil]
    omega

theorem simdParse_frames (ls : List RawLine) (hwf : ∀ l ∈ ls, WfLine l) :
    simdParseList (linesBytes ls) = ls.map (fun l => (l.1, digits_to_number l.2)) := by
  unfold simdParseList
  exact simdRun_frames ls.length ls [] (linesBytes ls) 0 ((linesBytes ls).length + 1)
    (Nat.le_refl _) (fun l hl => wfLine_struct (hwf l hl)) extraOk_nil
    (by simp) (Nat.lt_succ_of_le (length_le_linesBytes ls))

theorem simdParse_tail (ls : List RawLine) (n v : List Nat)
    (hwf : ∀ l ∈ ls, WfLine l) (hn_ne : n ≠ [])
    (hn : ∀ b ∈ n, b ≠ semiByte ∧ b ≠ nlByte)
    (hv : ∀ b ∈ v, b ≠ semiByte ∧ b ≠ nlByte) :
    simdParseList (linesBytes ls ++ (n ++ semiByte :: v)) =
      ls.map (fun l => (l.1, digits_to_number l.2)) := by
  unfold simdParseList
  exact simdRun_frames ls.length ls (n ++ semiByte :: v) _ 0 _
    (Nat.le_refl _) (fun l hl => wfLine_struct (hwf l hl))
    (Or.inr ⟨n, v, hn_ne, hn, hv, rfl⟩)
    (by simp)
    (by
      have h1 := length_le_linesBytes ls
      simp only [List.length_append]
      omega)

theorem lineParse_frames (ls : List RawLine) (hwf : ∀ l ∈ ls, WfLine l) :
    lineParseList (linesBytes ls) = ls.map (fun l => (l.1, digits_to_number l.2)) := by
  unfold lineParseList
  have h0 : linesBytes ls = linesBytes ls ++ [] := by simp
  rw [h0] at *
  rw [lineParseRun_frame ls [] _ hwf (by
    have := length_le_linesBytes ls
    simp only [List.append_nil]
    omega)]
  rw [lineParseRun_nil]
  simp

theorem lineParse_tail (ls : List RawLine) (n v : List Nat)
    (hwf : ∀ l ∈ ls, WfLine l)
    (hn : ∀ b ∈ n, b ≠ semiByte) (hv_ne : v ≠ []) (hv : ∀ b ∈ v, b ≠ nlByte) :
    lineParseList (linesBytes ls ++ (n ++ semiByte :: v)) =
      ls.map (fun l => (l.1, digits_to_number l.2)) ++ [(n, truncScaled v)] := by
  unfold lineParseList
  rw [lineParseRun_frame ls (n ++ semiByte :: v) _ hwf (by
    have := length_le_linesBytes ls
    simp only [List.length_append]
    omega)]
  rw [lineParseRun_tail_unterminated n v hn hv_ne hv _ (by
    have := length_le_linesBytes ls
    simp only [List.length_append, List.length_cons]
    omega)]

/-! ### C1: the LiteHashBuffer hash word -/

set_option maxRecDepth 4096 in
/-- C1 (counterexample): the claimed hash word — length in the low byte,
byte `i` at bits `((i+1)*8)..((i+2)*8)` — disagrees with the code for the
one-byte buffer `[1]` (claimed `0x101`, actual `0x1`: byte 0 is shifted by
`0*8` and lands on top of the length) and for a 256-byte buffer of zeros
(claimed `0` since `256 & 0xFF = 0`, actual `256`: the full length is
used, not `length & 0xFF`). -/
theorem c1_hash_counterexample :
    liteHash [1] ≠ claimHashC1 [1] ∧
      liteHash (List.replicate 256 0) ≠ claimHashC1 (List.replicate 256 0) := by
  constructor <;> decide

/-- C1 (amended): for every byte sequence `b`, the 64-bit hash word equals
the buffer length (reduced mod `2^64`) OR-ed with byte `i` shifted left by
`i*8` for each `i < min(7, length b)` — so byte 0 overlaps the length
field at bits 0..7, and only the first seven bytes participate. -/
theorem c1_hash_amended (b : List Nat) : liteHash b = correctedHashC1 b := by
  unfold liteHash correctedHashC1
  exact foldl_lor_init (fun p => p.2 <<< (p.1 * 8)) (b.take 7).enum (b.length % 2 ^ 64)


/-! ### C6: value parsing -/

/-- C6: on every value token matching `-?[0-9]{1,3}\\.[0-9]` followed by a
newline, `parse_value` consumes through the newline and returns the
temperature scaled by 10 as claimed (digit accumulation, dot skipped,
leading minus negating), and `digits_to_number` on the bare token returns
the same value; in particular `535.4\\n` parses to `5354` and `-535.4\\n`
to `-5354` (see the witness). -/
theorem c6_parse_value_scaled (s ds : List Nat) (f : Nat) (rest : List Nat)
    (hs : s = [] ∨ s = [45]) (hne : ds ≠ []) (_hlen : ds.length ≤ 3)
    (hdig : ∀ b ∈ ds, IsDigit b) (hf : IsDigit f) :
    parse_value ((s ++ ds ++ [46, f]) ++ nlByte :: rest) =
        (tokenScaled s ds f, rest) ∧
      digits_to_number (s ++ ds ++ [46, f]) = tokenScaled s ds f :=
  ⟨parse_value_token rest hs hne hdig hf, digits_to_number_token hs hdig hf⟩

/-- C6 witness: the scenario values of the claim, `535.4\\n ↦ 5354` and
`-535.4\\n ↦ -5354`. -/
theorem c6_parse_value_scaled_witness :
    (parse_value ([53, 51, 53, 46, 52] ++ nlByte :: []) = (5354, []) ∧
        digits_to_number [53, 51, 53, 46, 52] = 5354) ∧
      (parse_value ([45, 53, 51, 53, 46, 52] ++ nlByte :: []) = (-5354, []) ∧
        digits_to_number [45, 53, 51, 53, 46, 52] = -5354) := by
  constructor
  · have h := c6_parse_value_scaled [] [53, 51, 53] 52 [] (Or.inl rfl)
      (by simp) (by simp) (by intro b hb; simp at hb; rcases hb with rfl | rfl | rfl <;>
        exact ⟨by omega, by omega⟩) ⟨by omega, by omega⟩
    have hts : tokenScaled [] [53, 51, 53] 52 = 5354 := by decide
    rw [hts] at h
    exact h
  · have h := c6_parse_value_scaled [45] [53, 51, 53] 52 [] (Or.inr rfl)
      (by simp) (by simp) (by intro b hb; simp at hb; rcases hb with rfl | rfl | rfl <;>
        exact ⟨by omega, by omega⟩) ⟨by omega, by omega⟩
    have hts : tokenScaled [45] [53, 51, 53] 52 = -5354 := by decide
    rw [hts] at h
    exact h

/-! ### C3: parser equivalence on well-formed frames -/

/-- C3: on every frame that is a concatenation of well-formed
`name;value\\n` lines, the byte-scan parser and the SIMD parser produce
identical `(name, scaled value)` sequences, and therefore populate equal
`StationRecords` however the pairs are streamed into a table. -/
theorem c3_parser_equivalence (frame : List Nat) (ls : List RawLine)
    (hls : ∀ l ∈ ls, WfLine l) (hframe : frame = linesBytes ls) :
    lineParseList frame = simdParseList frame ∧
      ∀ r : StationRecords,
        recInsertAll (lineParseList frame) r = recInsertAll (simdParseList frame) r := by
  subst hframe
  rw [lineParse_frames ls hls, simdParse_frames ls hls]
  exact ⟨rfl, fun _ => rfl⟩

/-- C3 witness: the two parsers agree on the concrete frame
`jill;3.4\\njack;1.2\\n`. -/
theorem c3_parser_equivalence_witness :
    lineParseList
        [106, 105, 108, 108, 59, 51, 46, 52, 10, 106, 97, 99, 107, 59, 49, 46, 50, 10] =
      simdParseList
        [106, 105, 108, 108, 59, 51, 46, 52, 10, 106, 97, 99, 107, 59, 49, 46, 50, 10] := by
  have h := c3_parser_equivalence
    [106, 105, 108, 108, 59, 51, 46, 52, 10, 106, 97, 99, 107, 59, 49, 46, 50, 10]
    [([106, 105, 108, 108], [51, 46, 52]), ([106, 97, 99, 107], [49, 46, 50])]
    (by
      intro l hl
      simp only [List.mem_cons, List.mem_singleton] at hl
      rcases hl with rfl | rfl | h0
      · exact ⟨⟨by simp, by simp, by decide⟩,
          [], [51], 52, Or.inl rfl, by simp, by simp,
          by intro b hb; simp at hb; subst hb; exact ⟨by omega, by omega⟩,
          ⟨by omega, by omega⟩, rfl⟩
      · exact ⟨⟨by simp, by simp, by decide⟩,
          [], [49], 50, Or.inl rfl, by simp, by simp,
          by intro b hb; simp at hb; subst hb; exact ⟨by omega, by omega⟩,
          ⟨by omega, by omega⟩, rfl⟩
      · exact absurd h0 (by simp))
    rfl
  exact h.1

/-! ### C2: frames whose final line lacks the trailing newline -/

/-- C2 (counterexample): on the frame `a;1.2` (no trailing newline,
semicolon and digits present), neither parser yields the final line's true
pair `(a, 12)`: the byte-scan parser drops the value's last character and
produces `(a, 1)`, and the SIMD parser produces nothing at all. -/
theorem c2_unterminated_counterexample :
    ([97], (12 : Int)) ∉ lineParseList [97, 59, 49, 46, 50] ∧
      ([97], (12 : Int)) ∉ simdParseList [97, 59, 49, 46, 50] := by
  constructor <;> decide

/-- C2 (amended): for a frame of well-formed lines followed by a final
line `name;value` with no trailing newline (name and value non-empty and
separator-free), the byte-scan parser yields the pairs of the preceding
lines plus a final pair whose name is correct but whose value is parsed
from the token with its LAST character dropped (`parse_value`
unconditionally discards the last byte read in lieu of the newline), and
the SIMD parser drops the unterminated final line entirely, yielding only
the preceding lines' pairs. -/
theorem c2_unterminated_amended (ls : List RawLine) (n v : List Nat)
    (hwf : ∀ l ∈ ls, WfLine l) (hn : WfName n) (hv_ne : v ≠ [])
    (hv : ∀ b ∈ v, b ≠ semiByte ∧ b ≠ nlByte) :
    lineParseList (linesBytes ls ++ (n ++ semiByte :: v)) =
        ls.map (fun l => (l.1, digits_to_number l.2)) ++ [(n, truncScaled v)] ∧
      simdParseList (linesBytes ls ++ (n ++ semiByte :: v)) =
        ls.map (fun l => (l.1, digits_to_number l.2)) := by
  rcases hn with ⟨hn_ne, _, hn_sep⟩
  constructor
  · exact lineParse_tail ls n v hwf (fun b hb => (hn_sep b hb).1) hv_ne
      (fun b hb => (hv b hb).2)
  · exact simdParse_tail ls n v hwf hn_ne hn_sep hv

/-- C2 witness: on `jack;1.2\\na;5.1` the byte-scan parser yields
`(jack, 12)` then `(a, 5)` (the trailing `1` of `5.1` is dropped), and the
SIMD parser yields only `(jack, 12)`. -/
theorem c2_unterminated_amended_witness :
    lineParseList [106, 97, 99, 107, 59, 49, 46, 50, 10, 97, 59, 53, 46, 49] =
        [([106, 97, 99, 107], 12), ([97], truncScaled [53, 46, 49])] ∧
      simdParseList [106, 97, 99, 107, 59, 49, 46, 50, 10, 97, 59, 53, 46, 49] =
        [([106, 97, 99, 107], 12)] := by
  have h := c2_unterminated_amended [([106, 97, 99, 107], [49, 46, 50])] [97] [53, 46, 49]
    (by
      intro l hl
      simp only [List.mem_singleton] at hl
      subst hl
      exact ⟨⟨by simp, by simp, by decide⟩,
        [], [49], 50, Or.inl rfl, by simp, by simp,
        by intro b hb; simp at hb; subst hb; exact ⟨by omega, by omega⟩,
        ⟨by omega, by omega⟩, rfl⟩)
    ⟨by simp, by simp, by decide⟩
    (by simp)
    (by decide)
  have hd : digits_to_number [49, 46, 50] = 12 := by decide
  simpa [linesBytes, lineBytes, semiByte, nlByte, hd] using h


/-! ### Station statistics algebra -/

theorem stats_add_assoc (a b c : StationStats) :
    (a.add b).add c = a.add (b.add c) := by
  simp [StationStats.add, min_assoc, max_assoc, Int.add_assoc, Nat.add_assoc]

theorem stats_add_comm (a b : StationStats) : a.add b = b.add a := by
  simp [StationStats.add, min_comm, max_comm, Int.add_comm, Nat.add_comm]

theorem stats_extend_eq_add_single (s : StationStats) (v : Int) :
    s.extend v = s.add (StationStats.single v) := rfl

theorem optAdd_none_left (x : Option StationStats) : optAdd none x = x := by
  cases x <;> rfl

theorem optAdd_none_right (x : Option StationStats) : optAdd x none = x := by
  cases x <;> rfl

theorem optAdd_assoc (x y z : Option StationStats) :
    optAdd (optAdd x y) z = optAdd x (optAdd y z) := by
  cases x <;> cases y <;> cases z <;> simp [optAdd, stats_add_assoc]

theorem optAdd_comm (x y : Option StationStats) : optAdd x y = optAdd y x := by
  cases x <;> cases y <;> simp [optAdd, stats_add_comm]

/-! ### Lookup characterizations of table operations -/

theorem recGet_cons (k : List Nat) (s : StationStats) (r : StationRecords) (n : List Nat) :
    recGet ((k, s) :: r) n = if k = n then some s else recGet r n := rfl

theorem recGet_append (a b : StationRecords) (n : List Nat) :
    recGet (a ++ b) n =
      match recGet a n with
      | some s => some s
      | none => recGet b n := by
  induction a with
  | nil => simp [recGet]
  | cons p a ih =>
    rcases p with ⟨k, s⟩
    by_cases h : k = n
    · simp [recGet_cons, h]
    · simp only [List.cons_append, recGet_cons, if_neg h]
      exact ih

theorem recGet_isSome_iff (r : StationRecords) (n : List Nat) :
    (recGet r n).isSome ↔ n ∈ recKeys r := by
  induction r with
  | nil => simp [recGet, recKeys]
  | cons p r ih =>
    rcases p with ⟨k, s⟩
    by_cases h : k = n
    · subst h
      simp [recGet_cons, recKeys]
    · simp only [recGet_cons, if_neg h, recKeys, List.map_cons, List.mem_cons]
      rw [ih]
      simp only [recKeys]
      constructor
      · intro hm; exact Or.inr hm
      · intro hm
        rcases hm with hm | hm
        · exact absurd hm.symm h
        · exact hm

theorem recGet_eq_none_iff (r : StationRecords) (n : List Nat) :
    recGet r n = none ↔ n ∉ recKeys r := by
  rw [← recGet_isSome_iff]
  cases recGet r n <;> simp

theorem recGet_update :
    ∀ (r : StationRecords) (k n : List Nat) (g : StationStats → StationStats),
      recGet (r.map (fun p => if p.1 = k then (p.1, g p.2) else p)) n =
        if n = k then (recGet r n).map g else recGet r n
  | [], k, n, g => by
    simp only [List.map_nil, recGet]
    split <;> rfl
  | (k1, s1) :: r, k, n, g => by
    have ih := recGet_update r k n g
    simp only [List.map_cons]
    by_cases h1 : k1 = k <;> by_cases h2 : k1 = n
    · have hnk : n = k := h2.symm.trans h1
      rw [if_pos h1, recGet_cons, if_pos h2, recGet_cons, if_pos h2, if_pos hnk]
      rfl
    · have hnk : ¬ n = k := fun hc => h2 (h1.trans hc.symm)
      rw [if_pos h1, recGet_cons, if_neg h2, recGet_cons, if_neg h2, if_neg hnk, ih,
        if_neg hnk]
    · have hnk : ¬ n = k := fun hc => h1 (h2.trans hc)
      rw [if_neg h1, recGet_cons, if_pos h2, recGet_cons, if_pos h2, if_neg hnk]
    · rw [if_neg h1, recGet_cons, if_neg h2, recGet_cons, if_neg h2, ih]

theorem recGet_mergeOne (r : StationRecords) (k : List Nat) (s : StationStats)
    (n : List Nat) :
    recGet (recMergeOne r k s) n =
      if n = k then
        match recGet r k with
        | some t => some (t.add s)
        | none => some s
      else recGet r n := by
  unfold recMergeOne
  by_cases hsome : (recGet r k).isSome
  · rw [if_pos hsome, recGet_update r k n (fun t => t.add s)]
    by_cases h : n = k
    · subst h
      rcases hx : recGet r n with _ | t
      · rw [hx] at hsome; simp at hsome
      · simp
    · rw [if_neg h, if_neg h]
  · rw [if_neg hsome, recGet_append]
    rcases hx : recGet r k with _ | t
    · by_cases h : n = k
      · subst h
        rw [hx, if_pos rfl]
        simp [recGet_cons]
      · rw [if_neg h]
        rcases hy : recGet r n with _ | u
        · rw [recGet_cons, if_neg (Ne.symm h)]
          rfl
        · simp
    · rw [hx] at hsome; simp at hsome

theorem recGet_insert (r : StationRecords) (k : List Nat) (v : Int) (n : List Nat) :
    recGet (recInsert k v r) n =
      if n = k then
        match recGet r k with
        | some t => some (t.extend v)
        | none => some (StationStats.single v)
      else recGet r n := by
  unfold recInsert
  by_cases hsome : (recGet r k).isSome
  · rw [if_pos hsome, recGet_update r k n (fun t => t.extend v)]
    by_cases h : n = k
    · subst h
      rcases hx : recGet r n with _ | t
      · rw [hx] at hsome; simp at hsome
      · simp
    · rw [if_neg h, if_neg h]
  · rw [if_neg hsome, recGet_append]
    rcases hx : recGet r k with _ | t
    · by_cases h : n = k
      · subst h
        rw [hx, if_pos rfl]
        simp [recGet_cons]
      · rw [if_neg h]
        rcases hy : recGet r n with _ | u
        · rw [recGet_cons, if_neg (Ne.symm h)]
          rfl
        · simp
    · rw [hx] at hsome; simp at hsome

/-! ### Key uniqueness is preserved -/

theorem recKeys_update (r : StationRecords) (k : List Nat)
    (g : StationStats → StationStats) :
    recKeys (r.map (fun p => if p.1 = k then (p.1, g p.2) else p)) = recKeys r := by
  unfold recKeys
  rw [List.map_map]
  apply List.map_congr_left
  intro p _
  by_cases h : p.1 = k <;> simp [h]

theorem mergeOne_nodup {r : StationRecords} (h : (recKeys r).Nodup)
    (k : List Nat) (s : StationStats) : (recKeys (recMergeOne r k s)).Nodup := by
  unfold recMergeOne
  by_cases hsome : (recGet r k).isSome
  · rw [if_pos hsome, recKeys_update r k (fun t => t.add s)]
    exact h
  · rw [if_neg hsome]
    have hk : k ∉ recKeys r := by
      rw [← recGet_eq_none_iff]
      cases hx : recGet r k
      · rfl
      · rw [hx] at hsome; simp at hsome
    unfold recKeys
    rw [List.map_append]
    rw [List.nodup_append]
    refine ⟨h, by simp, ?_⟩
    intro x hx
    simp only [List.map_cons, List.map_nil, List.mem_singleton]
    intro hx2
    subst hx2
    exact hk hx

theorem insert_nodup {r : StationRecords} (h : (recKeys r).Nodup)
    (k : List Nat) (v : Int) : (recKeys (recInsert k v r)).Nodup := by
  unfold recInsert
  by_cases hsome : (recGet r k).isSome
  · rw [if_pos hsome, recKeys_update r k (fun t => t.extend v)]
    exact h
  · rw [if_neg hsome]
    have hk : k ∉ recKeys r := by
      rw [← recGet_eq_none_iff]
      cases hx : recGet r k
      · rfl
      · rw [hx] at hsome; simp at hsome
    unfold recKeys
    rw [List.map_append, List.nodup_append]
    refine ⟨h, by simp, ?_⟩
    intro x hx
    simp only [List.map_cons, List.map_nil, List.mem_singleton]
    intro hx2
    subst hx2
    exact hk hx

theorem merge_nodup : ∀ (b a : StationRecords), (recKeys a).Nodup →
    (recKeys (recMerge a b)).Nodup
  | [], a, ha => ha
  | (k, s) :: b, a, ha => by
    have h1 : recMerge a ((k, s) :: b) = recMerge (recMergeOne a k s) b := rfl
    rw [h1]
    exact merge_nodup b (recMergeOne a k s) (mergeOne_nodup ha k s)

theorem insertAll_nodup : ∀ (ps : List (List Nat × Int)) (r : StationRecords),
    (recKeys r).Nodup → (recKeys (recInsertAll ps r)).Nodup
  | [], r, hr => hr
  | (k, v) :: ps, r, hr => by
    have h1 : recInsertAll ((k, v) :: ps) r = recInsertAll ps (recInsert k v r) := rfl
    rw [h1]
    exact insertAll_nodup ps (recInsert k v r) (insert_nodup hr k v)

/-! ### Table merge, pointwise -/

theorem recGet_merge : ∀ (b a : StationRecords) (n : List Nat),
    (recKeys b).Nodup →
    recGet (recMerge a b) n = optAdd (recGet a n) (recGet b n)
  | [], a, n, _ => by
    rw [show recMerge a [] = a from rfl]
    simp [recGet, optAdd_none_right]
  | (k, s) :: b, a, n, hb => by
    have h1 : recMerge a ((k, s) :: b) = recMerge (recMergeOne a k s) b := rfl
    have hcons : recKeys ((k, s) :: b) = k :: recKeys b := rfl
    rw [hcons, List.nodup_cons] at hb
    have hb2 : (recKeys b).Nodup := hb.2
    have hk : k ∉ recKeys b := hb.1
    rw [h1, recGet_merge b (recMergeOne a k s) n hb2, recGet_mergeOne, recGet_cons]
    by_cases h : n = k
    · subst h
      have hnone : recGet b n = none := (recGet_eq_none_iff b n).2 hk
      rw [hnone, optAdd_none_right, if_pos rfl, if_pos rfl]
      rcases hx : recGet a n with _ | t
      · rw [optAdd_none_left]
      · rfl
    · rw [if_neg h, if_neg (Ne.symm h)]

/-! ### C4: merge algebra -/

/-- C4: table merge folds every pair of the right-hand table into the
left-hand table pointwise (create-if-absent), and — up to hash-map
equality, i.e. extensional lookup equality `recEq` — it is associative and
commutative with the empty table as two-sided identity, for tables with
unique keys (the invariant every `HashMap` maintains). -/
theorem c4_merge_algebra (a b c : StationRecords)
    (ha : (recKeys a).Nodup) (hb : (recKeys b).Nodup) (hc : (recKeys c).Nodup) :
    (∀ k, recGet (recMerge a b) k = optAdd (recGet a k) (recGet b k)) ∧
      recEq (recMerge (recMerge a b) c) (recMerge a (recMerge b c)) ∧
      recEq (recMerge a b) (recMerge b a) ∧
      recMerge a StationRecords.empty = a ∧
      recEq (recMerge StationRecords.empty a) a := by
  refine ⟨fun k => recGet_merge b a k hb, ?_, ?_, rfl, ?_⟩
  · intro k
    rw [recGet_merge c (recMerge a b) k hc, recGet_merge b a k hb,
      recGet_merge (recMerge b c) a k (merge_nodup c b hb), recGet_merge c b k hc,
      optAdd_assoc]
  · intro k
    rw [recGet_merge b a k hb, recGet_merge a b k ha, optAdd_comm]
  · intro k
    rw [recGet_merge a StationRecords.empty k ha]
    rw [show recGet StationRecords.empty k = none from rfl, optAdd_none_left]

/-- C4 witness: merge algebra at three concrete one/two-entry tables. -/
theorem c4_merge_algebra_witness :
    (((recKeys [([1], StationStats.single 5)]).Nodup ∧
        (recKeys [([1], StationStats.single 2), ([2], StationStats.single 3)]).Nodup ∧
        (recKeys [([3], StationStats.single 7)]).Nodup)) ∧
      ((∀ k, recGet (recMerge [([1], StationStats.single 5)]
            [([1], StationStats.single 2), ([2], StationStats.single 3)]) k =
          optAdd (recGet [([1], StationStats.single 5)] k)
            (recGet [([1], StationStats.single 2), ([2], StationStats.single 3)] k)) ∧
        recEq (recMerge (recMerge [([1], StationStats.single 5)]
              [([1], StationStats.single 2), ([2], StationStats.single 3)])
            [([3], StationStats.single 7)])
          (recMerge [([1], StationStats.single 5)]
            (recMerge [([1], StationStats.single 2), ([2], StationStats.single 3)]
              [([3], StationStats.single 7)])) ∧
        recEq (recMerge [([1], StationStats.single 5)]
            [([1], StationStats.single 2), ([2], StationStats.single 3)])
          (recMerge [([1], StationStats.single 2), ([2], StationStats.single 3)]
            [([1], StationStats.single 5)]) ∧
        recMerge [([1], StationStats.single 5)] StationRecords.empty =
          [([1], StationStats.single 5)] ∧
        recEq (recMerge StationRecords.empty [([1], StationStats.single 5)])
          [([1], StationStats.single 5)]) :=
  ⟨⟨by decide, by decide, by decide⟩,
    c4_merge_algebra [([1], StationStats.single 5)]
      [([1], StationStats.single 2), ([2], StationStats.single 3)]
      [([3], StationStats.single 7)] (by decide) (by decide) (by decide)⟩


/-! ### Worker-pool determinism machinery -/

theorem foldr_optAdd_perm {l l2 : List (Option StationStats)} (h : l.Perm l2) :
    l.foldr optAdd none = l2.foldr optAdd none := by
  induction h with
  | nil => rfl
  | cons x _ ih => simp only [List.foldr_cons, ih]
  | swap x y l =>
    simp only [List.foldr_cons]
    rw [← optAdd_assoc, ← optAdd_assoc, optAdd_comm y x]
  | trans _ _ ih1 ih2 => exact ih1.trans ih2

theorem foldr_optAdd_append :
    ∀ xs ys : List (Option StationStats),
      (xs ++ ys).foldr optAdd none =
        optAdd (xs.foldr optAdd none) (ys.foldr optAdd none)
  | [], ys => by simp [optAdd_none_left]
  | x :: xs, ys => by
    simp only [List.cons_append, List.foldr_cons]
    rw [foldr_optAdd_append xs ys, ← optAdd_assoc]

theorem recGet_insertAll :
    ∀ (ps : List (List Nat × Int)) (r : StationRecords) (n : List Nat),
      recGet (recInsertAll ps r) n =
        optAdd (recGet r n) (recGet (recInsertAll ps []) n)
  | [], r, n => by
    simp only [recInsertAll, List.foldl_nil]
    rw [show recGet ([] : StationRecords) n = none from rfl, optAdd_none_right]
  | (k, v) :: ps, r, n => by
    have hstep : ∀ r0 : StationRecords,
        recInsertAll ((k, v) :: ps) r0 = recInsertAll ps (recInsert k v r0) :=
      fun _ => rfl
    rw [hstep, hstep]
    rw [recGet_insertAll ps (recInsert k v r) n, recGet_insertAll ps (recInsert k v []) n]
    rw [recGet_insert, recGet_insert]
    by_cases h : n = k
    · subst h
      rw [if_pos rfl, if_pos rfl]
      rw [show recGet ([] : StationRecords) n = none from rfl]
      rcases hx : recGet r n with _ | t
      · rw [optAdd_none_left]
      · show optAdd (some (t.extend v)) _ =
          optAdd (some t) (optAdd (some (StationStats.single v)) _)
        rw [stats_extend_eq_add_single, ← optAdd_assoc]
        rfl
    · rw [if_neg h, if_neg h]
      rw [show recGet ([] : StationRecords) n = none from rfl, optAdd_none_left]

theorem recGet_insertAll_append (ps qs : List (List Nat × Int)) (n : List Nat) :
    recGet (recInsertAll (ps ++ qs) []) n =
      optAdd (recGet (recInsertAll ps []) n) (recGet (recInsertAll qs []) n) := by
  have h1 : recInsertAll (ps ++ qs) ([] : StationRecords) =
      recInsertAll qs (recInsertAll ps []) := by
    unfold recInsertAll
    rw [List.foldl_append]
  rw [h1]
  exact recGet_insertAll qs (recInsertAll ps []) n

theorem workerRun_eq_insertAll (part : List (List Nat)) :
    workerRun part = recInsertAll ((part.map lineParseList).flatten) [] := rfl

theorem recGet_worker :
    ∀ (part : List (List Nat)) (n : List Nat),
      recGet (workerRun part) n =
        (part.map (fun fr => recGet (recInsertAll (lineParseList fr) []) n)).foldr
          optAdd none
  | [], n => rfl
  | fr :: part, n => by
    rw [workerRun_eq_insertAll]
    simp only [List.map_cons, List.flatten_cons]
    rw [recGet_insertAll_append, List.foldr_cons]
    rw [← workerRun_eq_insertAll, recGet_worker part n]

theorem fold_merge_nodup :
    ∀ (tables : List StationRecords) (acc : StationRecords),
      (recKeys acc).Nodup → (recKeys (tables.foldl recMerge acc)).Nodup
  | [], _, h => h
  | t :: ts, acc, h =>
    fold_merge_nodup ts (recMerge acc t) (merge_nodup t acc h)

theorem recGet_fold_merge :
    ∀ (tables : List StationRecords) (acc : StationRecords) (n : List Nat),
      (∀ t ∈ tables, (recKeys t).Nodup) →
      recGet (tables.foldl recMerge acc) n =
        optAdd (recGet acc n) ((tables.map (fun t => recGet t n)).foldr optAdd none)
  | [], acc, n, _ => by
    simp only [List.foldl_nil, List.map_nil, List.foldr_nil, optAdd_none_right]
  | t :: ts, acc, n, h => by
    rw [List.foldl_cons,
      recGet_fold_merge ts (recMerge acc t) n (fun x hx => h x (by simp [hx]))]
    rw [recGet_merge t acc n (h t (by simp))]
    rw [List.map_cons, List.foldr_cons, optAdd_assoc]

theorem foldr_optAdd_flatten :
    ∀ (pls : List (List (List Nat))) (c : List Nat → Option StationStats),
      ((pls.map (fun l => (l.map c).foldr optAdd none)).foldr optAdd none) =
        ((pls.flatten.map c).foldr optAdd none)
  | [], c => rfl
  | l :: pls, c => by
    simp only [List.map_cons, List.foldr_cons, List.flatten_cons, List.map_append]
    rw [foldr_optAdd_append, foldr_optAdd_flatten pls c]

theorem exportPairs_ext (a b : StationRecords) (ha : (recKeys a).Nodup)
    (hb : (recKeys b).Nodup) (h : recEq a b) : exportPairs a = exportPairs b := by
  have hmem : ∀ n, n ∈ recKeys a ↔ n ∈ recKeys b := by
    intro n
    rw [← recGet_isSome_iff, ← recGet_isSome_iff, h n]
  have hfin : (recKeys a).toFinset = (recKeys b).toFinset := by
    apply Finset.ext
    intro n
    simp only [List.mem_toFinset]
    exact hmem n
  have hperm : (recKeys a).Perm (recKeys b) :=
    List.perm_of_nodup_nodup_toFinset_eq ha hb hfin
  have hsorted : List.insertionSort (fun x y : List Nat => x ≤ y) (recKeys a) =
      List.insertionSort (fun x y : List Nat => x ≤ y) (recKeys b) := by
    refine List.eq_of_perm_of_sorted ?_ (List.sorted_insertionSort _ _)
      (List.sorted_insertionSort _ _)
    exact ((List.perm_insertionSort _ _).trans hperm).trans
      (List.perm_insertionSort _ _).symm
  unfold exportPairs
  rw [hsorted]
  apply List.map_congr_left
  intro k _
  rw [h k]

/-! ### C5: output determinism across worker counts and assignments -/

/-- C5: for a fixed frame sequence, every partition of the frames among
any number of workers (each worker parsing its frames in order into a
local table, the coordinator folding the local tables with `+=`) produces
a final table extensionally equal to the single-worker run, and the sorted
export entries — the content the output file is formatted from — are
identical; hence two runs on the same input produce byte-identical
output. -/
theorem c5_output_determinism (frames : List (List Nat))
    (parts : List (List (List Nat))) (hperm : parts.flatten.Perm frames) :
    recEq (coordinate parts) (workerRun frames) ∧
      exportPairs (coordinate parts) = exportPairs (workerRun frames) := by
  have hpoint : recEq (coordinate parts) (workerRun frames) := by
    intro n
    have hnodups : ∀ t ∈ parts.map workerRun, (recKeys t).Nodup := by
      intro t ht
      rcases List.mem_map.1 ht with ⟨p, _, rfl⟩
      rw [workerRun_eq_insertAll]
      exact insertAll_nodup _ [] (by simp [recKeys])
    rw [show coordinate parts =
        (parts.map workerRun).foldl recMerge StationRecords.empty from rfl]
    rw [recGet_fold_merge (parts.map workerRun) StationRecords.empty n hnodups]
    rw [show recGet StationRecords.empty n = none from rfl, optAdd_none_left]
    rw [List.map_map]
    have hmapeq : parts.map ((fun t => recGet t n) ∘ workerRun) =
        parts.map (fun p =>
          ((p.map (fun fr => recGet (recInsertAll (lineParseList fr) []) n)).foldr
            optAdd none)) :=
      List.map_congr_left (fun p _ => recGet_worker p n)
    rw [hmapeq]
    rw [foldr_optAdd_flatten parts
      (fun fr => recGet (recInsertAll (lineParseList fr) []) n)]
    rw [foldr_optAdd_perm
      (hperm.map (fun fr => recGet (recInsertAll (lineParseList fr) []) n))]
    rw [← recGet_worker frames n]
  refine ⟨hpoint, exportPairs_ext _ _ ?_ ?_ hpoint⟩
  · rw [show coordinate parts =
        (parts.map workerRun).foldl recMerge StationRecords.empty from rfl]
    exact fold_merge_nodup _ _ (by simp [recKeys, StationRecords.empty])
  · rw [workerRun_eq_insertAll]
    exact insertAll_nodup _ [] (by simp [recKeys])

/-- C5 witness: three frames split into two workers in a different order
give the same table and export as the single-worker run. -/
theorem c5_output_determinism_witness :
    ([[[98, 59, 48, 46, 51, 10]],
        [[97, 59, 45, 48, 46, 53, 10], [97, 59, 49, 46, 50, 10]]].flatten).Perm
        [[97, 59, 49, 46, 50, 10], [98, 59, 48, 46, 51, 10],
          [97, 59, 45, 48, 46, 53, 10]] ∧
      (recEq
          (coordinate [[[98, 59, 48, 46, 51, 10]],
            [[97, 59, 45, 48, 46, 53, 10], [97, 59, 49, 46, 50, 10]]])
          (workerRun [[97, 59, 49, 46, 50, 10], [98, 59, 48, 46, 51, 10],
            [97, 59, 45, 48, 46, 53, 10]]) ∧
        exportPairs (coordinate [[[98, 59, 48, 46, 51, 10]],
            [[97, 59, 45, 48, 46, 53, 10], [97, 59, 49, 46, 50, 10]]]) =
          exportPairs (workerRun [[97, 59, 49, 46, 50, 10], [98, 59, 48, 46, 51, 10],
            [97, 59, 45, 48, 46, 53, 10]])) :=
  ⟨by decide,
    c5_output_determinism
      [[97, 59, 49, 46, 50, 10], [98, 59, 48, 46, 51, 10],
        [97, 59, 45, 48, 46, 53, 10]]
      [[[98, 59, 48, 46, 51, 10]],
        [[97, 59, 45, 48, 46, 53, 10], [97, 59, 49, 46, 50, 10]]]
      (by decide)⟩


/-! ### Reader frame alignment machinery -/

theorem nil_no_decomp {f : List Nat} {fs1 fs2 : List (List Nat)}
    (h : ([] : List (List Nat)) = fs1 ++ f :: fs2) : False := by
  rcases fs1 with _ | ⟨g, fs1⟩ <;> simp at h

theorem singleton_decomp {a f : List Nat} {fs1 fs2 : List (List Nat)}
    (h : [a] = fs1 ++ f :: fs2) : fs2 = [] := by
  rcases fs1 with _ | ⟨g, fs1⟩
  · simp only [List.nil_append, List.cons.injEq] at h
    exact h.2.symm
  · simp only [List.cons_append, List.cons.injEq] at h
    exact absurd h.2.symm (by simp)

theorem endnl_append {A B : List Nat} (hB : B.getLast? = some nlByte) :
    (A ++ B).getLast? = some nlByte := by
  rw [List.getLast?_append, hB]
  rfl

theorem endnl_of_append {X Y : List Nat} (h : (X ++ Y).getLast? = some nlByte)
    (hY : Y ≠ []) : Y.getLast? = some nlByte := by
  rw [List.getLast?_append] at h
  rcases hy : Y.getLast? with _ | y
  · exact absurd (List.getLast?_eq_none_iff.1 hy) hY
  · rw [hy] at h
    exact h

theorem rowsRead_nil (cs cap : Nat) (sched : Nat → Nat × Bool) :
    ∀ (fuel i : Nat), rowsRead cs cap fuel [] [] sched i = []
  | 0, _ => rfl
  | fuel + 1, i => by
    simp [rowsRead, read_until, flush_trigger]

theorem chopRun_nil : ∀ fuel : Nat, chopRun fuel [] = []
  | 0 => rfl
  | _ + 1 => rfl

theorem chopRun_spec :
    ∀ (fuel : Nat) (l : List Nat), l.length < fuel →
      (chopRun fuel l).flatten = l ∧
        (l.getLast? = some nlByte →
          ∀ c ∈ chopRun fuel l, c ≠ [] ∧ c.getLast? = some nlByte)
  | 0, l, h => by omega
  | fuel + 1, [], _ => by
    refine ⟨rfl, ?_⟩
    intro _ c hc
    simp [chopRun] at hc
  | fuel + 1, b :: t, hlen => by
    have hchop : chopRun (fuel + 1) (b :: t) =
        (read_until nlByte (b :: t)).1 :: chopRun fuel (read_until nlByte (b :: t)).2 := rfl
    have happ := read_until_append_eq nlByte (b :: t)
    have hne : (read_until nlByte (b :: t)).1 ≠ [] := by
      rw [Ne, read_until_fst_nil]
      simp
    have hlen2 : (read_until nlByte (b :: t)).2.length < fuel := by
      have := congrArg List.length happ
      simp only [List.length_append, List.length_cons] at this hlen
      rcases hx : (read_until nlByte (b :: t)).1 with _ | _
      · exact absurd hx hne
      · rw [hx] at this
        simp only [List.length_cons] at this
        omega
    have ih := chopRun_spec fuel (read_until nlByte (b :: t)).2 hlen2
    constructor
    · rw [hchop]
      simp only [List.flatten_cons, ih.1]
      exact happ
    · intro hnl c hc
      rw [hchop] at hc
      rcases List.mem_cons.1 hc with rfl | hc
      · refine ⟨hne, ?_⟩
        rcases read_until_last (b :: t) with h1 | h1
        · exact h1
        · rw [← happ, h1, List.append_nil] at hnl
          exact hnl
      · have h2 : (read_until nlByte (b :: t)).2 = [] ∨
            (read_until nlByte (b :: t)).2.getLast? = some nlByte := by
          rcases hx : (read_until nlByte (b :: t)).2 with _ | _
          · exact Or.inl rfl
          · right
            rw [← hx]
            refine @endnl_of_append (read_until nlByte (b :: t)).1 _ ?_ (by simp [hx])
            rw [happ]
            exact hnl
        rcases h2 with h2 | h2
        · rw [h2, chopRun_nil] at hc
          simp at hc
        · exact ih.2 h2 c hc

theorem chopLines_spec (l : List Nat) (h : l.getLast? = some nlByte) :
    (chopLines l).flatten = l ∧ ∀ c ∈ chopLines l, c ≠ [] ∧ c.getLast? = some nlByte := by
  have := chopRun_spec (l.length + 1) l (Nat.lt_succ_self _)
  exact ⟨this.1, this.2 h⟩

theorem rowsRead_spec (cs cap : Nat) (sched : Nat → Nat × Bool) :
    ∀ (fuel : Nat) (rem exp : List Nat) (i : Nat),
      (∀ f ∈ rowsRead cs cap fuel rem exp sched i, f ≠ []) ∧
        (∀ f fs1 fs2, rowsRead cs cap fuel rem exp sched i = fs1 ++ f :: fs2 →
          fs2 ≠ [] → f.getLast? = some nlByte) ∧
        ((exp ++ rem = [] ∨ (exp ++ rem).getLast? = some nlByte) →
          ∀ f ∈ rowsRead cs cap fuel rem exp sched i, f.getLast? = some nlByte) := by
  intro fuel
  induction fuel with
  | zero =>
    intro rem exp i
    refine ⟨by simp [rowsRead], ?_, by simp [rowsRead]⟩
    intro f fs1 fs2 h _
    exact absurd h (fun hc => nil_no_decomp hc)
  | succ fuel ih =>
    intro rem exp i
    set k := Min.min ((sched i).1 + 1) rem.length with hk
    set exp2 := exp ++ rem.take k with hexp2
    set rem2 := rem.drop k with hrem2
    have hpres : exp2 ++ rem2 = exp ++ rem := by
      rw [hexp2, hrem2, List.append_assoc, List.take_append_drop]
    have hunfold : rowsRead cs cap (fuel + 1) rem exp sched i =
        if flush_trigger k exp2.length cap cs (sched i).2 then
          (if (exp2 ++ (read_until nlByte rem2).1).length ≠ 0 then
            [exp2 ++ (read_until nlByte rem2).1] else []) ++
            (if (read_until nlByte rem2).1.length = 0 then []
              else rowsRead cs cap fuel (read_until nlByte rem2).2 [] sched (i + 1))
        else rowsRead cs cap fuel rem2 exp2 sched (i + 1) := rfl
    by_cases hfl : flush_trigger k exp2.length cap cs (sched i).2
    · rw [hunfold, if_pos hfl]
      have happ := read_until_append_eq nlByte rem2
      by_cases hp1 : (read_until nlByte rem2).1.length = 0
      · -- EOF on the line read: emit the leftover buffer (if any) and stop
        have hp1nil : (read_until nlByte rem2).1 = [] := List.length_eq_zero.1 hp1
        have hrem2nil : rem2 = [] := (read_until_fst_nil nlByte rem2).1 hp1nil
        rw [if_pos hp1, hp1nil]
        simp only [List.append_nil]
        by_cases hex : exp2.length ≠ 0
        · rw [if_pos hex]
          have hexp2eq : exp2 = exp ++ rem := by
            rw [← hpres, hrem2nil, List.append_nil]
          refine ⟨?_, ?_, ?_⟩
          · intro f hf
            rcases List.mem_singleton.1 hf with rfl
            intro hc
            rw [hc] at hex
            simp at hex
          · intro f fs1 fs2 h hfs2
            exact absurd (singleton_decomp h) hfs2
          · intro hnl f hf
            rcases List.mem_singleton.1 hf with rfl
            rcases hnl with hnl | hnl
            · rw [hexp2eq, hnl] at hex
              simp at hex
            · rw [hexp2eq]
              exact hnl
        · rw [if_neg hex]
          refine ⟨by simp, ?_, by simp⟩
          intro f fs1 fs2 h _
          exact absurd h (fun hc => nil_no_decomp hc)
      · -- a full line was read: emit and continue
        have hp1ne : (read_until nlByte rem2).1 ≠ [] := by
          intro hc
          rw [hc] at hp1
          simp at hp1
        have hfne : (exp2 ++ (read_until nlByte rem2).1).length ≠ 0 := by
          simp only [List.length_append]
          rcases hx : (read_until nlByte rem2).1 with _ | _
          · exact absurd hx hp1ne
          · simp only [List.length_cons]
            omega
        rw [if_neg hp1, if_pos hfne]
        have ihrec := ih (read_until nlByte rem2).2 [] (i + 1)
        refine ⟨?_, ?_, ?_⟩
        · intro f hf
          rcases List.mem_cons.1 (by simpa using hf) with rfl | hf2
          · intro hc
            rw [hc] at hfne
            simp at hfne
          · exact ihrec.1 f hf2
        · intro f fs1 fs2 h hfs2
          rw [List.singleton_append] at h
          rcases fs1 with _ | ⟨g, fs1⟩
          · simp only [List.nil_append, List.cons.injEq] at h
            rcases h with ⟨rfl, hrec⟩
            rcases read_until_last rem2 with h1 | h1
            · exact endnl_append h1
            · rw [h1, rowsRead_nil] at hrec
              exact absurd hrec.symm hfs2
          · simp only [List.cons_append, List.cons.injEq] at h
            exact ihrec.2.1 f fs1 fs2 h.2 hfs2
        · intro hnl f hf
          have hnl2 : (exp2 ++ rem2).getLast? = some nlByte := by
            rcases hnl with hnl | hnl
            · exfalso
              have hremnil : rem = [] := (List.append_eq_nil.1 hnl).2
              have h0 : rem2 = [] := by rw [hrem2, hremnil, List.drop_nil]
              rw [h0] at hp1
              simp [read_until] at hp1
            · rw [hpres]
              exact hnl
          rcases List.mem_cons.1 (by simpa using hf) with rfl | hf2
          · rcases read_until_last rem2 with h1 | h1
            · exact endnl_append h1
            · rw [h1, List.append_nil] at happ
              rw [happ]
              exact hnl2
          · have hsuffix : (read_until nlByte rem2).2 = [] ∨
                (read_until nlByte rem2).2.getLast? = some nlByte := by
              rcases hx : (read_until nlByte rem2).2 with _ | _
              · exact Or.inl rfl
              · right
                rw [← hx]
                refine @endnl_of_append (exp2 ++ (read_until nlByte rem2).1) _ ?_
                  (by simp [hx])
                rw [List.append_assoc, happ]
                exact hnl2
            refine ihrec.2.2 ?_ f hf2
            simp only [List.nil_append]
            exact hsuffix
    · rw [hunfold, if_neg hfl]
      have ihrec := ih rem2 exp2 (i + 1)
      refine ⟨ihrec.1, ihrec.2.1, ?_⟩
      intro hnl
      refine ihrec.2.2 ?_
      rw [hpres]
      exact hnl

/-! ### Claims C7-C10 -/

/-- C7: every frame the reader pushes to the output queue is nonempty; every
frame except possibly the final one ends with the newline byte; and when the
stream itself ends with a newline, every frame ends with a newline and
decomposes exactly into whole newline-terminated lines. -/
theorem c7_frame_alignment (cs cap : Nat) (sched : Nat → Nat × Bool)
    (stream : List Nat) :
    (∀ f ∈ rowsReaderRun cs cap stream sched, f ≠ []) ∧
    (∀ f fs1 fs2, rowsReaderRun cs cap stream sched = fs1 ++ f :: fs2 →
      fs2 ≠ [] → f.getLast? = some nlByte) ∧
    (stream.getLast? = some nlByte →
      ∀ f ∈ rowsReaderRun cs cap stream sched,
        f.getLast? = some nlByte ∧ (chopLines f).flatten = f ∧
          ∀ c ∈ chopLines f, c ≠ [] ∧ c.getLast? = some nlByte) := by
  have h := rowsRead_spec cs cap sched (stream.length + 1) stream [] 0
  refine ⟨h.1, h.2.1, ?_⟩
  intro hnl f hf
  have hfl := h.2.2 (Or.inr (by simpa using hnl)) f hf
  have hch := chopLines_spec f hfl
  exact ⟨hfl, hch.1, hch.2⟩

theorem c7_frame_alignment_witness :
    ([97, 59, 49, 10] : List Nat).getLast? = some nlByte ∧
    ([97, 59, 49, 10] : List Nat) ∈
      rowsReaderRun 1 100 [97, 59, 49, 10] (fun _ => (100, false)) ∧
    ([97, 59, 49, 10] : List Nat).getLast? = some nlByte ∧
    (chopLines [97, 59, 49, 10]).flatten = [97, 59, 49, 10] := by
  have hm : ([97, 59, 49, 10] : List Nat) ∈
      rowsReaderRun 1 100 [97, 59, 49, 10] (fun _ => (100, false)) := by decide
  have h := (c7_frame_alignment 1 100 (fun _ => (100, false)) [97, 59, 49, 10]).2.2
    (by decide) _ hm
  exact ⟨by decide, hm, h.1, h.2.1⟩

/-- C8: the flush trigger fires iff the last read returned zero bytes (EOF),
the export buffer is full, or a consumer is waiting; and whenever the export
buffer capacity is at least chunk_size + MAX_LINE_LENGTH, buffer_full holds
iff the remaining headroom capacity - len is at most
chunk_size + MAX_LINE_LENGTH, the unsigned subtraction
capacity - chunk_size - MAX_LINE_LENGTH not underflowing under that
precondition. -/
theorem c8_flush_condition (bytes_read len cap cs : Nat) (waiting : Bool) :
    (flush_trigger bytes_read len cap cs waiting = true ↔
      bytes_read = 0 ∨ buffer_full len cap cs = true ∨ waiting = true) ∧
    (cs + MAX_LINE_LENGTH ≤ cap →
      (buffer_full len cap cs = true ↔ cap - len ≤ cs + MAX_LINE_LENGTH) ∧
        (cap : Int) - cs - MAX_LINE_LENGTH =
          ((cap - cs - MAX_LINE_LENGTH : Nat) : Int)) := by
  have h30 : MAX_LINE_LENGTH = 30 := rfl
  constructor
  · simp [flush_trigger, or_assoc]
  · intro h
    rw [h30] at h
    constructor
    · simp only [buffer_full, decide_eq_true_iff, h30]
      omega
    · rw [h30]
      omega

theorem c8_flush_condition_witness :
    50 + MAX_LINE_LENGTH ≤ 200 ∧
    (flush_trigger 5 100 200 50 false = true ↔
      5 = 0 ∨ buffer_full 100 200 50 = true ∨ false = true) ∧
    (buffer_full 100 200 50 = true ↔ 200 - 100 ≤ 50 + MAX_LINE_LENGTH) ∧
    ((200 : Nat) : Int) - ((50 : Nat) : Int) - (MAX_LINE_LENGTH : Int) =
      ((200 - 50 - MAX_LINE_LENGTH : Nat) : Int) := by
  have h := c8_flush_condition 5 100 200 50 false
  exact ⟨by decide, h.1, (h.2 (by decide)).1, (h.2 (by decide)).2⟩

theorem readCalls_true : ∀ m : Nat, readCalls m true = List.replicate m false
  | 0 => rfl
  | m + 1 => by
    simp [readCalls, readGuard, compare_exchange, List.replicate_succ,
      readCalls_true m]

/-- C9: the in_progress guard admits the first read call on a fresh instance
(atomically flipping the flag from false to true) and makes every later call
panic at the guard before reading any bytes: of n successive calls exactly
the first proceeds and the other n - 1 abort. -/
theorem c9_read_once (n : Nat) (h : 1 ≤ n) :
    readGuard false = some true ∧ readGuard true = none ∧
    readCalls n false = true :: List.replicate (n - 1) false := by
  refine ⟨rfl, rfl, ?_⟩
  rcases n with _ | m
  · omega
  · simp [readCalls, readGuard, compare_exchange, readCalls_true m]

theorem c9_read_once_witness :
    1 ≤ 3 ∧ readCalls 3 false = true :: List.replicate (3 - 1) false :=
  ⟨by decide, (c9_read_once 3 (by decide)).2.2⟩

/-- C10: with_chunk_sizes stores chunk_size = max(MAX_LINE_LENGTH, c)
= max(30, c) and max_chunk_size = m unchanged, so a requested read-chunk size
below the maximum line length is silently raised to 30, while new() stores
the unclamped compile-time defaults 65536*8 and 65536*8*16 + 30. -/
theorem c10_chunk_size_clamp (c m : Nat) :
    (RowsReader.with_chunk_sizes c m).chunk_size = Max.max 30 c ∧
    (RowsReader.with_chunk_sizes c m).max_chunk_size = m ∧
    (c < MAX_LINE_LENGTH → (RowsReader.with_chunk_sizes c m).chunk_size = 30) ∧
    RowsReader.new.chunk_size = 65536 * 8 ∧
    RowsReader.new.max_chunk_size = 65536 * 8 * 16 + 30 := by
  refine ⟨rfl, rfl, ?_, rfl, rfl⟩
  intro h
  have h30 : MAX_LINE_LENGTH = 30 := rfl
  rw [h30] at h
  show Max.max MAX_LINE_LENGTH c = 30
  rw [h30]
  omega

theorem c10_chunk_size_clamp_witness :
    7 < MAX_LINE_LENGTH ∧ (RowsReader.with_chunk_sizes 7 99).chunk_size = 30 ∧
    (RowsReader.with_chunk_sizes 7 99).max_chunk_size = 99 :=
  ⟨by decide, (c10_chunk_size_clamp 7 99).2.2.1 (by decide),
    (c10_chunk_size_clamp 7 99).2.1⟩

end Brc
